import Mathlib

/-!
Shallow embedding of the seating-plan engine of `src/utils/seatingAlgorithm.ts`
(the enhanced multi-strategy implementation: `shuffleArray`, `OptimizedUnionFind`,
`detectConstraintConflicts`, `buildAtomicGroups`, `applyDiversityStrategy`,
`canPlaceGroupOnTable`, `scorePlan`, `isPlanSufficientlyUnique`,
`generateSinglePlan`, `optimizeSeatingOrder`, `validateConstraints`,
`generateSeatingPlans`), together with the earlier solver-file variant of
`detectConstraintConflicts` (the one carrying the adjacency-violation check),
embedded under the `VariantA` namespace.

Modelling conventions:
- JavaScript objects / `Map`s keyed by strings are association lists
  (`List (String × β)`); `Map.set` overwrites in place and appends new keys,
  `Object.entries` iterates the list in order.  JS object keys are unique;
  theorems that depend on iteration add the corresponding `Nodup` hypotheses.
- JS `Set`s are duplicate-free lists in insertion order (`setAdd` / `setOfList`).
- `Math.random()` is modelled by an oracle: each syntactic call site of
  `shuffleArray` (and the plan-id draw) reads from its own row of a
  `Nat → Nat` (or `Nat → Nat → Nat`) stream, and every theorem quantifies over
  the oracle, which covers every real execution.
- Recursive JS functions whose termination rests on data invariants
  (union-find `find` with path compression, the DFS cycle detection, the
  `while` loop of `optimizeSeatingOrder`) take an explicit fuel that is large
  enough for every reachable state; exhausting it models only unreachable runs.
- The wall-clock/`Math.random` conflict `id` fields and the human-readable
  `description` strings of conflicts, and the interpolated numbers inside
  validation-error messages, are display-only and are not inspected by any
  claim; conflict records keep `type`, `severity` and `affectedGuests`, and
  validation errors keep a fixed message text plus the `type` tag.
- JS numbers are exact rationals here (integer arithmetic is exact in doubles
  up to 2^53; the uniqueness threshold `0.8 - 0.05*n` is modelled by the exact
  unnormalized fraction type `JSQ`).
-/

/-- Constraint cell value: `'must' | 'cannot' | ''`. -/
inductive CVal
  | must
  | cannot
  | blank
deriving DecidableEq, Repr

/-- A guest party: display name and party size (`count`). -/
structure Guest where
  name : String
  count : Nat
deriving DecidableEq, Repr

/-- A table: numeric id and capacity (the app's `Table.seats` field). -/
structure Table where
  id : Int
  seats : Nat
deriving DecidableEq, Repr

/-- Per-table accumulator of `generateSinglePlan` (also the shape of a plan's
table in its output: id, seated guest units, capacity). -/
structure PTable where
  id : Int
  seats : List Guest
  capacity : Nat
deriving DecidableEq, Repr

/-- `AtomicGroup` of the source: guests that must be placed together. -/
structure AtomicGroup where
  units : List Guest
  totalCount : Nat
  priority : Nat
  constraintCount : Nat
deriving DecidableEq, Repr

inductive ConflictType
  | circular
  | impossible
  | capacity_violation
  | adjacency_violation
deriving DecidableEq, Repr

inductive Severity
  | low
  | medium
  | high
  | critical
deriving DecidableEq, Repr

/-- `ConstraintConflict` (id and description elided, see header). -/
structure Conflict where
  type : ConflictType
  severity : Severity
  affectedGuests : List String
deriving DecidableEq, Repr

inductive EKind
  | error
  | warning
deriving DecidableEq, Repr

/-- `ValidationError` of the app: message and kind tag. -/
structure ValidationError where
  message : String
  type : EKind
deriving DecidableEq, Repr

/-- A produced seating plan (`id` is the random draw; `score` is attached by
the orchestrator, `generateSinglePlan` leaves it 0). -/
structure SeatingPlan where
  id : Nat
  tables : List PTable
  score : Int
deriving DecidableEq, Repr

/-- Result record of `generateSeatingPlans`. -/
structure GenResult where
  plans : List SeatingPlan
  errors : List ValidationError
deriving DecidableEq, Repr

/-- Constraint map `Record<string, Record<string, 'must'|'cannot'|''>>`. -/
abbrev CMap : Type := List (String × List (String × CVal))

/-- Adjacency map `Record<string, string[]>`. -/
abbrev AdjMap : Type := List (String × List String)

/-- Assignment map `Record<string, string>` (CSV of table ids). -/
abbrev AsgMap : Type := List (String × String)

/-- First-match association-list lookup (JS object property read). -/
def mapGet {β : Type} (m : List (String × β)) (k : String) : Option β :=
  (m.find? (fun e => e.1 == k)).map (fun e => e.2)

/-- JS `Map.set` / object property write: overwrite in place, else append. -/
def mapSet {β : Type} (m : List (String × β)) (k : String) (v : β) :
    List (String × β) :=
  if (m.find? (fun e => e.1 == k)).isSome then
    m.map (fun e => if e.1 == k then (k, v) else e)
  else m ++ [(k, v)]

/-- `constraints[g] || {}`. -/
def cmRow (cm : CMap) (g : String) : List (String × CVal) :=
  (mapGet cm g).getD []

/-- `constraints[g1]?.[g2]` (`none` models `undefined`). -/
def cmGet (cm : CMap) (g1 g2 : String) : Option CVal :=
  match mapGet cm g1 with
  | none => none
  | some row => mapGet row g2

/-- `adjacents[g] || []`. -/
def adjGet (adj : AdjMap) (g : String) : List String :=
  (mapGet adj g).getD []

/-- `assignments[g]` (`none` models `undefined`). -/
def asgGet (asg : AsgMap) (g : String) : Option String :=
  mapGet asg g

/-- JS `Set.add`: keep first insertion, append if new. -/
def setAdd (s : List String) (x : String) : List String :=
  if s.contains x then s else s ++ [x]

/-- The JS `Set` of a list of strings (insertion order, deduplicated), which is
also the key sequence of `new Map(list.map(x => [key x, x]))`. -/
def setOfList (xs : List String) : List String :=
  xs.foldl setAdd []

/-- Lookup in `new Map(guests.map(g => [g.name, g]))`: later entries overwrite
earlier ones, so the value found is the last guest with the given name. -/
def guestLookup (gs : List Guest) (n : String) : Option Guest :=
  gs.reverse.find? (fun g => g.name == n)

/-- Swap two positions of a list (used by the Fisher–Yates shuffle; identity
when an index is out of range, which does not happen in the shuffle). -/
def listSwap {α : Type} (l : List α) (i j : Nat) : List α :=
  match l.get? i, l.get? j with
  | some xi, some xj => (l.set i xj).set j xi
  | _, _ => l

/-- The Fisher–Yates loop: at step `i` (counting down from `length - 1`) swap
position `i` with `j = σ k % (i+1)`, where `σ` is the `Math.random` oracle for
this call site (`σ k % (i+1)` ranges over exactly the values
`Math.floor(Math.random() * (i+1))` can take). -/
def fyAux {α : Type} (σ : Nat → Nat) : Nat → Nat → List α → List α
  | 0, _, a => a
  | m + 1, k, a => fyAux σ m (k + 1) (listSwap a (m + 1) (σ k % (m + 2)))

/-- `shuffleArray` (Fisher–Yates over a copy of the input). -/
def shuffleArray {α : Type} (σ : Nat → Nat) (xs : List α) : List α :=
  fyAux σ (xs.length - 1) 0 xs

/-- State of `OptimizedUnionFind`: `parent` and `rank` maps. -/
structure UFState where
  parent : List (String × String)
  rank : List (String × Nat)
deriving DecidableEq, Repr

/-- `OptimizedUnionFind.find` with path compression, fueled.  The fuel is an
upper bound on the parent-chain length; for the acyclic parent forests the
class actually builds, `parent.length + 1` never runs out. -/
def ufFindAux : Nat → UFState → String → String × UFState
  | 0, st, x => (x, st)
  | fuel + 1, st, x =>
    let st :=
      if (mapGet st.parent x).isSome then st
      else { st with parent := mapSet st.parent x x, rank := mapSet st.rank x 0 }
    let p := (mapGet st.parent x).getD x
    if p == x then (x, st)
    else
      let r := ufFindAux fuel st p
      (r.1, { r.2 with parent := mapSet r.2.parent x r.1 })

def UFState.find (st : UFState) (x : String) : String × UFState :=
  ufFindAux (st.parent.length + 1) st x

/-- `OptimizedUnionFind.union` (union by rank; the boolean result of the source
is never consumed and is dropped here). -/
def UFState.union (st : UFState) (a b : String) : UFState :=
  let fa := st.find a
  let fb := fa.2.find b
  let root1 := fa.1
  let root2 := fb.1
  let st := fb.2
  if root1 == root2 then st
  else
    let rank1 := (mapGet st.rank root1).getD 0
    let rank2 := (mapGet st.rank root2).getD 0
    if rank1 < rank2 then { st with parent := mapSet st.parent root1 root2 }
    else if rank2 < rank1 then { st with parent := mapSet st.parent root2 root1 }
    else
      { st with parent := mapSet st.parent root2 root1,
                rank := mapSet st.rank root1 (rank1 + 1) }

/-- Append `k` to the bucket of root `r` (insertion-ordered map of groups). -/
def addToGroup (gs : List (String × List String)) (r k : String) :
    List (String × List String) :=
  if (gs.find? (fun e => e.1 == r)).isSome then
    gs.map (fun e => if e.1 == r then (e.1, e.2 ++ [k]) else e)
  else gs ++ [(r, [k])]

/-- `OptimizedUnionFind.getGroups`: bucket every key of `parent` by its root
(the iteration snapshots the key list first; `find` only overwrites values of
existing keys during it, matching the JS `Map` iteration). -/
def UFState.getGroups (st : UFState) : List (List String) :=
  let keys := st.parent.map (fun e => e.1)
  let r := keys.foldl
    (fun (acc : List (String × List String) × UFState) k =>
      let f := acc.2.find k
      (addToGroup acc.1 f.1 k, f.2))
    ([], st)
  r.1.map (fun e => e.2)

/-- Kernel-computable char-level equivalents of the core `String` operations
(`toLower`, `trim`, `split(',')`, `join(sep)`), used so that concrete runs of
the model reduce inside the kernel. -/
def strToLower (s : String) : String := ⟨s.data.map Char.toLower⟩

def strTrim (s : String) : String :=
  ⟨((s.data.dropWhile Char.isWhitespace).reverse.dropWhile
      Char.isWhitespace).reverse⟩

def splitCommaAux : List Char → List Char → List String
  | [], acc => [⟨acc.reverse⟩]
  | c :: rest, acc =>
    if c == ',' then ⟨acc.reverse⟩ :: splitCommaAux rest []
    else splitCommaAux rest (c :: acc)

/-- JS `s.split(',')` (so `"".split(',') = [""]`, `"1,".split(',') = ["1",""]`). -/
def splitComma (s : String) : List String := splitCommaAux s.data []

/-- JS `Array.prototype.join(sep)`. -/
def joinSep (sep : String) : List String → String
  | [] => ""
  | [x] => x
  | x :: y :: rest => x ++ sep ++ joinSep sep (y :: rest)

/-- Case-insensitive substring test used to model `/bride|groom/i.test(name)`:
`startsWithChars needle hay` says `needle` is a prefix of `hay`. -/
def startsWithChars : List Char → List Char → Bool
  | [], _ => true
  | _ :: _, [] => false
  | c :: cs, d :: ds => c == d && startsWithChars cs ds

/-- `hasSub needle hay`: `needle` occurs as a contiguous substring of `hay`. -/
def hasSub (needle : List Char) : List Char → Bool
  | [] => needle.isEmpty
  | c :: rest => startsWithChars needle (c :: rest) || hasSub needle rest

/-- `/bride|groom/i.test(name)`. -/
def nameIsPriority (name : String) : Bool :=
  hasSub "bride".toList (strToLower name).data
    || hasSub "groom".toList (strToLower name).data

/-- The group comparator `(b.priority - a.priority) || (b.totalCount - a.totalCount)`
as the non-strict "comes no later than" relation of a stable sort. -/
def groupLe (a b : AtomicGroup) : Prop :=
  b.priority < a.priority ∨ (a.priority = b.priority ∧ b.totalCount ≤ a.totalCount)

instance : DecidableRel groupLe := fun a b => by
  unfold groupLe; infer_instance

/-- `buildAtomicGroups`. -/
def buildAtomicGroups (guests : List Guest) (cm : CMap) (adj : AdjMap) :
    List AtomicGroup :=
  let uf : UFState := ⟨[], []⟩
  let uf := guests.foldl (fun st g => (st.find g.name).2) uf
  let uf := cm.foldl
    (fun st e1 =>
      e1.2.foldl
        (fun st e2 => if e2.2 == CVal.must then st.union e1.1 e2.1 else st) st)
    uf
  let uf := adj.foldl
    (fun st e1 => e1.2.foldl (fun st k2 => st.union e1.1 k2) st) uf
  let groups := uf.getGroups.map (fun groupNames =>
    let units := groupNames.filterMap (guestLookup guests)
    let totalCount := units.foldl (fun s u => s + u.count) 0
    let priority := if units.any (fun u => nameIsPriority u.name) then 25 else 0
    let constraintCount := units.foldl (fun c u => c + (cmRow cm u.name).length) 0
    AtomicGroup.mk units totalCount priority constraintCount)
  List.insertionSort groupLe groups

inductive DiversityStrategy
  | shuffle
  | reverse
  | sizeFirst
  | sizeLast
  | randomPairs
  | priorityFirst
  | constraintHeavyFirst
deriving DecidableEq, Repr

/-- The `random-pairs` re-emission loop (push index `i`, then `i+1` if any):
on a list this is the identity traversal, kept in the source's shape. -/
def pairEmit {α : Type} : List α → List α
  | [] => []
  | [a] => [a]
  | a :: b :: rest => a :: b :: pairEmit rest

def sizeFirstLe (a b : AtomicGroup) : Prop := b.totalCount ≤ a.totalCount

instance : DecidableRel sizeFirstLe := fun a b => by
  unfold sizeFirstLe; infer_instance

def sizeLastLe (a b : AtomicGroup) : Prop := a.totalCount ≤ b.totalCount

instance : DecidableRel sizeLastLe := fun a b => by
  unfold sizeLastLe; infer_instance

def constraintHeavyLe (a b : AtomicGroup) : Prop :=
  b.constraintCount ≤ a.constraintCount

instance : DecidableRel constraintHeavyLe := fun a b => by
  unfold constraintHeavyLe; infer_instance

/-- `applyDiversityStrategy` (`σ` is this call's `Math.random` row; JS
`Array.sort` with a consistent comparator is modelled by the stable
insertion sort under the comparator's non-strict order; the `default` branch
of the source switch is unreachable since the strategy type is exhaustive). -/
def applyDiversityStrategy (σ : Nat → Nat) (groups : List AtomicGroup) :
    DiversityStrategy → List AtomicGroup
  | DiversityStrategy.shuffle => shuffleArray σ groups
  | DiversityStrategy.reverse => groups.reverse
  | DiversityStrategy.sizeFirst => List.insertionSort sizeFirstLe groups
  | DiversityStrategy.sizeLast => List.insertionSort sizeLastLe groups
  | DiversityStrategy.randomPairs => pairEmit (shuffleArray σ groups)
  | DiversityStrategy.priorityFirst => List.insertionSort groupLe groups
  | DiversityStrategy.constraintHeavyFirst =>
      List.insertionSort constraintHeavyLe groups

/-- `canPlaceGroupOnTable`. -/
def canPlaceGroupOnTable (group : List Guest) (tableSeats : List Guest)
    (tableCapacity : Nat) (cm : CMap) : Bool :=
  let currentOccupancy := tableSeats.foldl (fun s g => s + g.count) 0
  let groupSize := group.foldl (fun s g => s + g.count) 0
  if tableCapacity < currentOccupancy + groupSize then false
  else
    group.all fun newGuest =>
      tableSeats.all fun existingGuest =>
        !(cmGet cm newGuest.name existingGuest.name == some CVal.cannot
          || cmGet cm existingGuest.name newGuest.name == some CVal.cannot)

/-- `scorePlan` (the four scoring passes of the source, as folds over the same
index ranges; `⟨"", 0⟩` is the dummy for the always-in-range index accesses). -/
def scorePlan (plan : SeatingPlan) (cm : CMap) (adj : AdjMap) : Int :=
  let totalGuests := (plan.tables.map (fun t => t.seats)).flatten.length
  let score : Int := if 0 < totalGuests then (totalGuests : Int) * 10 else 0
  let score := plan.tables.foldl
    (fun sc table =>
      (List.range table.seats.length).foldl
        (fun sc1 i =>
          ((List.range table.seats.length).drop (i + 1)).foldl
            (fun sc2 j =>
              let g1 := (table.seats.getD i ⟨"", 0⟩).name
              let g2 := (table.seats.getD j ⟨"", 0⟩).name
              if cmGet cm g1 g2 == some CVal.must
                  || cmGet cm g2 g1 == some CVal.must then
                sc2 + 100
              else sc2)
            sc1)
        sc)
    score
  let violatedCannot := plan.tables.foldl
    (fun (n : Nat) table =>
      (List.range table.seats.length).foldl
        (fun n1 i =>
          ((List.range table.seats.length).drop (i + 1)).foldl
            (fun n2 j =>
              let g1 := (table.seats.getD i ⟨"", 0⟩).name
              let g2 := (table.seats.getD j ⟨"", 0⟩).name
              if cmGet cm g1 g2 == some CVal.cannot
                  || cmGet cm g2 g1 == some CVal.cannot then
                n2 + 1
              else n2)
            n1)
        n)
    0
  let score := score - (violatedCannot : Int) * 200
  let score := plan.tables.foldl
    (fun sc table =>
      let seatedNames := table.seats.map (fun g => g.name)
      table.seats.foldl
        (fun sc2 guest =>
          let satisfied :=
            ((adjGet adj guest.name).filter fun a => seatedNames.contains a).length
          sc2 + (satisfied : Int) * 50)
        sc)
    score
  max 0 score

/-- Exact unnormalized fraction, modelling the JS floating-point expressions of
the uniqueness filter as exact rationals (all denominators at use sites are
positive, and the guarded division `matching / total` is only compared when
`total > 0`). -/
structure JSQ where
  num : Int
  den : Int
deriving DecidableEq, Repr

def JSQ.mul (a b : JSQ) : JSQ := ⟨a.num * b.num, a.den * b.den⟩

def JSQ.sub (a b : JSQ) : JSQ := ⟨a.num * b.den - b.num * a.den, a.den * b.den⟩

/-- `a < b` for positive denominators. -/
def JSQ.blt (a b : JSQ) : Bool := a.num * b.den < b.num * a.den

/-- `isPlanSufficientlyUnique` (the source's early-return loop as an `all`;
the unused default threshold `0.7` of the signature is dropped since the one
call site always passes a threshold). -/
def isPlanSufficientlyUnique (newPlan : SeatingPlan)
    (existingPlans : List SeatingPlan) (threshold : JSQ) : Bool :=
  existingPlans.all fun plan =>
    let totalGuests := (newPlan.tables.map (fun t => t.seats)).flatten.length
    let matchingGuests : Nat := newPlan.tables.foldl
      (fun m newTable =>
        match plan.tables.find? (fun t => t.id == newTable.id) with
        | some matchingTable =>
          let newGuests := setOfList (newTable.seats.map (fun g => g.name))
          let existingGuests :=
            setOfList (matchingTable.seats.map (fun g => g.name))
          m + (newGuests.filter fun g => existingGuests.contains g).length
        | none => m)
      0
    !(decide (0 < totalGuests)
        && JSQ.blt threshold ⟨(matchingGuests : Int), (totalGuests : Int)⟩)

/-- The `while (availableGuests.size > 0)` loop of `optimizeSeatingOrder`:
returns the guests pushed after the start guest.  Each iteration deletes the
chosen guest's name from `available`, so `available.length` is exactly enough
fuel; the `none` fall-through models the unreachable paths where the JS code
would dereference `undefined`. -/
def optLoop (adj : AdjMap) (gmap : String → Option Guest) :
    Nat → Guest → List String → List Guest
  | 0, _, _ => []
  | fuel + 1, currentGuest, available =>
    if available.isEmpty then []
    else
      let desiredAdjacents := adjGet adj currentGuest.name
      let nextGuestName := desiredAdjacents.find? fun a => available.contains a
      let next : Option Guest :=
        match nextGuestName with
        | some n => if (gmap n).isSome then gmap n else available.head?.bind gmap
        | none => available.head?.bind gmap
      match next with
      | none => []
      | some g => g :: optLoop adj gmap fuel g (available.erase g.name)

/-- `optimizeSeatingOrder`. -/
def optimizeSeatingOrder (tableGuests : List Guest) (adj : AdjMap) :
    List Guest :=
  if tableGuests.length ≤ 1 then tableGuests
  else
    let availableGuests := setOfList (tableGuests.map (fun g => g.name))
    let gmap := guestLookup tableGuests
    let currentGuest :=
      (tableGuests.find? fun g => nameIsPriority g.name).getD
        (tableGuests.headD ⟨"", 0⟩)
    let available := availableGuests.erase currentGuest.name
    currentGuest :: optLoop adj gmap available.length currentGuest available

/-- Numeric value of a digit string (most significant first). -/
def digitsVal (cs : List Char) : Nat :=
  cs.foldl (fun a c => a * 10 + (c.toNat - '0'.toNat)) 0

def isHexDigit (c : Char) : Bool :=
  c.isDigit || ('a' ≤ c && c ≤ 'f') || ('A' ≤ c && c ≤ 'F')

def hexDigitVal (c : Char) : Nat :=
  if c.isDigit then c.toNat - '0'.toNat
  else if 'a' ≤ c && c ≤ 'f' then c.toNat - 'a'.toNat + 10
  else c.toNat - 'A'.toNat + 10

def hexVal (cs : List Char) : Nat :=
  cs.foldl (fun a c => a * 16 + hexDigitVal c) 0

def octVal (cs : List Char) : Nat :=
  cs.foldl (fun a c => a * 8 + (c.toNat - '0'.toNat)) 0

def binVal (cs : List Char) : Nat :=
  cs.foldl (fun a c => a * 2 + (c.toNat - '0'.toNat)) 0

/-- JS `parseInt(token.trim())` with no radix argument: after the optional
sign, a `0x`/`0X` prefix switches to hexadecimal; the longest valid digit run
is parsed and trailing text ignored; no digits at all parse to `NaN`
(`none`, which every call site filters out or fails to match against a table
id).  Values are exact integers; binary64 rounding of magnitudes of 2^53 and
above is not modelled (the results are only compared against table ids). -/
def parseIntBody (cs : List Char) : Option Int :=
  match cs with
  | '0' :: x :: rest =>
    if x == 'x' || x == 'X' then
      let ds := rest.takeWhile isHexDigit
      if ds.isEmpty then none else some ((hexVal ds : Nat) : Int)
    else
      let ds := ('0' :: x :: rest).takeWhile Char.isDigit
      if ds.isEmpty then none else some ((digitsVal ds : Nat) : Int)
  | cs =>
    let ds := cs.takeWhile Char.isDigit
    if ds.isEmpty then none else some ((digitsVal ds : Nat) : Int)

def parseIntJS (s : String) : Option Int :=
  match (strTrim s).data with
  | '-' :: rest => (parseIntBody rest).map (fun n => -n)
  | '+' :: rest => parseIntBody rest
  | cs => parseIntBody cs

/-- A JS `Number` value as far as `Array.includes` can observe it: `NaN`,
a signed infinity, or a finite value kept as an exact rational. -/
inductive JSNum
  | nan
  | inf (neg : Bool)
  | num (q : JSQ)
deriving DecidableEq, Repr

/-- The SameValueZero comparison `Array.includes` performs on `Number` values:
`NaN` matches `NaN`, infinities match by sign, and finite values compare by
exact value (cross-multiplication; `0` and `-0` both have numerator `0` and
so match). -/
def JSNum.sv : JSNum → JSNum → Bool
  | JSNum.nan, JSNum.nan => true
  | JSNum.inf a, JSNum.inf b => a == b
  | JSNum.num a, JSNum.num b => a.num * b.den == b.num * a.den
  | _, _ => false

instance : BEq JSNum := ⟨JSNum.sv⟩

/-- The exponent suffix of a decimal literal: empty, or `e`/`E`, an optional
sign and a nonempty digit run consuming the rest of the token. -/
def parseExp : List Char → Option Int
  | [] => some 0
  | c :: rest =>
    if c == 'e' || c == 'E' then
      match rest with
      | '+' :: ds =>
        if !ds.isEmpty && ds.all Char.isDigit then some ((digitsVal ds : Nat) : Int)
        else none
      | '-' :: ds =>
        if !ds.isEmpty && ds.all Char.isDigit then some (-((digitsVal ds : Nat) : Int))
        else none
      | ds =>
        if !ds.isEmpty && ds.all Char.isDigit then some ((digitsVal ds : Nat) : Int)
        else none
    else none

/-- Exact value of `integer-digits [. fraction-digits] e exponent`. -/
def decValue (ip fp : List Char) (e : Int) : JSQ :=
  let m : Nat := digitsVal ip * 10 ^ fp.length + digitsVal fp
  let k : Int := e - (fp.length : Int)
  if 0 ≤ k then ⟨((m * 10 ^ k.toNat : Nat) : Int), 1⟩
  else ⟨(m : Int), ((10 ^ (-k).toNat : Nat) : Int)⟩

/-- An unsigned decimal literal covering the whole token:
`digits [. digits] [exp]` or `. digits [exp]`. -/
def parseDec (cs : List Char) : Option JSQ :=
  let ip := cs.takeWhile Char.isDigit
  match cs.dropWhile Char.isDigit with
  | '.' :: rest2 =>
    let fp := rest2.takeWhile Char.isDigit
    if ip.isEmpty && fp.isEmpty then none
    else (parseExp (rest2.dropWhile Char.isDigit)).map (fun e => decValue ip fp e)
  | rest1 =>
    if ip.isEmpty then none
    else (parseExp rest1).map (fun e => decValue ip [] e)

/-- `Infinity` or an unsigned decimal literal (the part a sign may precede). -/
def numberUnsigned (cs : List Char) : Option JSNum :=
  if cs = "Infinity".data then some (JSNum.inf false)
  else (parseDec cs).map JSNum.num

/-- JS `Number(token)`: a whitespace-only or empty token is `0`; a full-token
decimal literal (optional sign, fraction, exponent), a signed `Infinity`, or
an unsigned `0x`/`0o`/`0b` integer literal parses to its exact value; anything
else is `NaN`.  Finite values are exact rationals standing in for binary64
doubles: distinct literals denoting the same rational are identified, as the
float parse also identifies them, and literals separated only by sub-ULP
rounding (beyond 17 significant digits) are treated as distinct — the same
exactness idealization used for the scoring and uniqueness arithmetic. -/
def numberJS (s : String) : JSNum :=
  match (strTrim s).data with
  | [] => JSNum.num ⟨0, 1⟩
  | '-' :: rest =>
    match numberUnsigned rest with
    | some (JSNum.inf _) => JSNum.inf true
    | some (JSNum.num q) => JSNum.num ⟨-q.num, q.den⟩
    | _ => JSNum.nan
  | '+' :: rest => (numberUnsigned rest).getD JSNum.nan
  | '0' :: x :: rest =>
    if x == 'x' || x == 'X' then
      if !rest.isEmpty && rest.all isHexDigit then
        JSNum.num ⟨((hexVal rest : Nat) : Int), 1⟩
      else JSNum.nan
    else if x == 'o' || x == 'O' then
      if !rest.isEmpty && rest.all (fun c => '0' ≤ c && c ≤ '7') then
        JSNum.num ⟨((octVal rest : Nat) : Int), 1⟩
      else JSNum.nan
    else if x == 'b' || x == 'B' then
      if !rest.isEmpty && rest.all (fun c => c == '0' || c == '1') then
        JSNum.num ⟨((binVal rest : Nat) : Int), 1⟩
      else JSNum.nan
    else (numberUnsigned ('0' :: x :: rest)).getD JSNum.nan
  | cs => (numberUnsigned cs).getD JSNum.nan

/-- `csv.split(',').map(id => parseInt(id.trim())).filter(id => !isNaN(id))`. -/
def parseAssignmentIds (s : String) : List Int :=
  (splitComma s).filterMap parseIntJS

/-- One pass of the restricted-placement loop of `generateSinglePlan`: try the
collected table ids in order; `plan.find(t => t.id === tableId)` is the first
table with that id, and a successful placement pushes the whole group there. -/
def tryAssignedTables (cm : CMap) (units : List Guest) (plan : List PTable) :
    List Int → Option (List PTable)
  | [] => none
  | tid :: rest =>
    match plan.findIdx? (fun t => t.id == tid) with
    | some idx =>
      match plan.get? idx with
      | some t =>
        if canPlaceGroupOnTable units t.seats t.capacity cm then
          some (plan.set idx { t with seats := t.seats ++ units })
        else tryAssignedTables cm units plan rest
      | none => tryAssignedTables cm units plan rest
    | none => tryAssignedTables cm units plan rest

/-- The fallback loop over the shuffled table list, modelled as trying the
(shuffled) positions of the plan array in order. -/
def tryTablesInOrder (cm : CMap) (units : List Guest) (plan : List PTable) :
    List Nat → Option (List PTable)
  | [] => none
  | idx :: rest =>
    match plan.get? idx with
    | some t =>
      if canPlaceGroupOnTable units t.seats t.capacity cm then
        some (plan.set idx { t with seats := t.seats ++ units })
      else tryTablesInOrder cm units plan rest
    | none => tryTablesInOrder cm units plan rest

/-- The group-placement loop of `generateSinglePlan` over the diversified
group list (`k` is the group index, selecting the `Math.random` row of that
iteration's `shuffleArray(plan)` call; shuffling the array of table objects is
modelled by shuffling the positions `List.range plan.length`).  Returns `none`
when some group fits nowhere (`return null`). -/
def placeGroups (rng : Nat → Nat → Nat) (cm : CMap) (asg : AsgMap) :
    List AtomicGroup → Nat → List PTable → Option (List PTable)
  | [], _, plan => some plan
  | group :: rest, k, plan =>
    let hasAssigned := group.units.any fun u =>
      match asgGet asg u.name with
      | some s => !(s == "")
      | none => false
    let assignedTableIds : List Int :=
      if hasAssigned then
        group.units.flatMap fun u =>
          match asgGet asg u.name with
          | some s => parseAssignmentIds s
          | none => []
      else []
    let attempt1 :=
      if assignedTableIds.isEmpty then none
      else tryAssignedTables cm group.units plan assignedTableIds
    match attempt1 with
    | some plan1 => placeGroups rng cm asg rest (k + 1) plan1
    | none =>
      let order := shuffleArray (rng (2 + k)) (List.range plan.length)
      match tryTablesInOrder cm group.units plan order with
      | some plan1 => placeGroups rng cm asg rest (k + 1) plan1
      | none => none

/-- `generateSinglePlan`.  `Math.random` rows: 0 for the strategy's shuffle,
1 for the plan id draw, `2 + k` for the table shuffle of group `k`. -/
def generateSinglePlan (rng : Nat → Nat → Nat) (atomicGroups : List AtomicGroup)
    (tables : List Table) (cm : CMap) (adj : AdjMap) (asg : AsgMap)
    (strategy : DiversityStrategy) : Option SeatingPlan :=
  let diversifiedGroups := applyDiversityStrategy (rng 0) atomicGroups strategy
  let plan : List PTable := tables.map fun t => ⟨t.id, [], t.seats⟩
  match placeGroups rng cm asg diversifiedGroups 0 plan with
  | none => none
  | some placedPlan =>
    let optimized := placedPlan.map fun t =>
      if 1 < t.seats.length then { t with seats := optimizeSeatingOrder t.seats adj }
      else t
    some ⟨rng 1 0 % 10000, optimized, 0⟩

/-- `validateConstraints` (messages keep a fixed text, see header). -/
def validateConstraints (guests : List Guest) (tables : List Table) (cm : CMap)
    (asg : AsgMap) (_adjacents : AdjMap) : List ValidationError :=
  let errors : List ValidationError := []
  let totalGuests : Nat := guests.foldl (fun s g => s + g.count) 0
  let totalSeats : Nat := tables.foldl (fun s t => s + t.seats) 0
  let errors :=
    if totalSeats < totalGuests then
      errors ++ [⟨"Not enough seats for all guests.", EKind.error⟩]
    else errors
  let errors := asg.foldl
    (fun errs e =>
      let tableIds := parseAssignmentIds e.2
      tableIds.foldl
        (fun errs2 tid =>
          if tables.any (fun t => t.id == tid) then errs2
          else errs2 ++
            [⟨"Invalid table assignment: table does not exist.", EKind.error⟩])
        errs)
    errors
  let errors := cm.foldl
    (fun errs e1 =>
      e1.2.foldl
        (fun errs2 e2 =>
          if e2.2 == CVal.must then
            match asgGet asg e1.1, asgGet asg e2.1 with
            | some s1, some s2 =>
              if !(s1 == "") && !(s2 == "") then
                let tables1 := (splitComma s1).map numberJS
                let tables2 := (splitComma s2).map numberJS
                if tables1.any (fun t => tables2.contains t) then errs2
                else errs2 ++
                  [⟨"Constraint conflict: must-pair assigned to non-overlapping tables.",
                    EKind.error⟩]
              else errs2
            | _, _ => errs2
          else errs2)
        errs)
    errors
  errors

/-- `Math.max(...tables.map(t => t.seats), 0)`. -/
def maxCap (tables : List Table) : Nat :=
  tables.foldl (fun m t => max m t.seats) 0

/-- JS `Array.prototype.slice(start)` for a possibly negative start index. -/
def jsSliceFrom (l : List String) (i : Int) : List String :=
  if 0 ≤ i then l.drop i.toNat else l.drop (l.length - (-i).toNat)

/-- JS `indexOf`: position of the first occurrence, `-1` when absent. -/
def jsIndexOf (l : List String) (x : String) : Int :=
  match l.findIdx? (fun y => y == x) with
  | some i => (i : Int)
  | none => -1

/-- Strict lexicographic comparison of char lists by code point, modelling the
JS default sort's code-unit comparison on the names that occur here. -/
def charListLt : List Char → List Char → Bool
  | [], [] => false
  | [], _ :: _ => true
  | _ :: _, [] => false
  | c :: cs, d :: ds =>
    c.toNat < d.toNat || (c.toNat == d.toNat && charListLt cs ds)

/-- String `≤` (`a` sorts no later than `b`) as the JS default sort order. -/
def strLe (a b : String) : Prop := charListLt b.data a.data = false

instance : DecidableRel strLe := fun a b => by
  unfold strLe; infer_instance

/-- `[x, y].sort().join('--')` — the contradictory-pair key. -/
def pairKeyOf (x y : String) : String :=
  joinSep "--" (List.insertionSort strLe [x, y])

/-- State threaded through the cycle DFS: the `visited` set and the conflict
list (the recursion stack is passed separately, since each call removes its
own node on exit, leaving the caller's stack unchanged). -/
structure DCState where
  visited : List String
  conflicts : List Conflict
deriving DecidableEq, Repr

/-- The recursive `detectCycle` of the enhanced `detectConstraintConflicts`.
Recursion only descends into guests not yet visited, and every call first
marks its node visited, so the recursion depth is bounded by the number of
distinct guest names; the callers pass `guests.length + 1` fuel. -/
def detectCycleGo (cm : CMap) (guestKeys : List String) :
    Nat → String → List String → List String → DCState → DCState
  | 0, _, _, _, st => st
  | fuel + 1, guestName, path, stack, st =>
    let st : DCState := { st with visited := setAdd st.visited guestName }
    let stack := setAdd stack guestName
    (cmRow cm guestName).foldl
      (fun st2 e =>
        if e.2 == CVal.must && guestKeys.contains e.1 then
          if stack.contains e.1 then
            let cycleStart := jsIndexOf path e.1
            let cycle := jsSliceFrom path cycleStart ++ [e.1]
            { st2 with conflicts := st2.conflicts ++
                [⟨ConflictType.circular, Severity.high, cycle⟩] }
          else if !(st2.visited.contains e.1) then
            detectCycleGo cm guestKeys fuel e.1 (path ++ [guestName]) stack st2
          else st2
        else st2)
      st

/-- The contradictory-constraints pass shared by both variants: nested
iteration over the constraint map, with the `checkedPairs` key set. -/
def contradictionPass (cm : CMap) (conflicts : List Conflict) : List Conflict :=
  (cm.foldl
    (fun (acc : List Conflict × List String) e1 =>
      e1.2.foldl
        (fun (acc2 : List Conflict × List String) e2 =>
          let pairKey := pairKeyOf e1.1 e2.1
          if acc2.2.contains pairKey then acc2
          else
            let rev := cmGet cm e2.1 e1.1
            let cfs :=
              if (e2.2 == CVal.must && rev == some CVal.cannot)
                  || (e2.2 == CVal.cannot && rev == some CVal.must) then
                acc2.1 ++ [⟨ConflictType.impossible, Severity.critical, [e1.1, e2.1]⟩]
              else acc2.1
            (cfs, acc2.2 ++ [pairKey]))
        acc)
    (conflicts, [])).1

/-- The must-group union-find of the capacity pass of the enhanced detector. -/
def capacityUF (guests : List Guest) (cm : CMap) : UFState :=
  let uf : UFState := ⟨[], []⟩
  let uf := guests.foldl (fun st g => (st.find g.name).2) uf
  cm.foldl
    (fun st e1 =>
      e1.2.foldl
        (fun st e2 => if e2.2 == CVal.must then st.union e1.1 e2.1 else st) st)
    uf

/-- The enhanced `detectConstraintConflicts` (circular, impossible, capacity;
this variant takes but never uses the adjacency arguments). -/
def detectConstraintConflicts (guests : List Guest) (cm : CMap)
    (tables : List Table) (_checkAdjacents : Bool) (_adjacents : AdjMap) :
    List Conflict :=
  if guests.isEmpty || tables.isEmpty then []
  else
    let guestKeys := setOfList (guests.map (fun g => g.name))
    let st := guestKeys.foldl
      (fun (st : DCState) g =>
        if st.visited.contains g then st
        else detectCycleGo cm guestKeys (guests.length + 1) g [g] [] st)
      ⟨[], []⟩
    let conflicts := contradictionPass cm st.conflicts
    let groups := (capacityUF guests cm).getGroups
    let maxTableCapacity := maxCap tables
    groups.foldl
      (fun cfs group =>
        let totalSize := group.foldl
          (fun s n => s + (((guestLookup guests n).map (fun g => g.count)).getD 0)) 0
        if maxTableCapacity < totalSize then
          cfs ++ [⟨ConflictType.capacity_violation, Severity.critical, group⟩]
        else cfs)
      conflicts

namespace VariantA

/-- State of the plain `DSU` class of the solver-file variant (`parent` only). -/
structure DSUState where
  parent : List (String × String)
deriving DecidableEq, Repr

/-- `DSU.find` with path compression, fueled like `ufFindAux`. -/
def dsuFindAux : Nat → DSUState → String → String × DSUState
  | 0, st, x => (x, st)
  | fuel + 1, st, x =>
    let st :=
      if (mapGet st.parent x).isSome then st
      else { st with parent := mapSet st.parent x x }
    let p := (mapGet st.parent x).getD x
    if p == x then (x, st)
    else
      let r := dsuFindAux fuel st p
      (r.1, { r.2 with parent := mapSet r.2.parent x r.1 })

def DSUState.find (st : DSUState) (x : String) : String × DSUState :=
  dsuFindAux (st.parent.length + 1) st x

/-- `DSU.union`: link the root of `b` under the root of `a`. -/
def DSUState.union (st : DSUState) (a b : String) : DSUState :=
  let fa := st.find a
  let fb := fa.2.find b
  if fa.1 == fb.1 then fb.2
  else { fb.2 with parent := mapSet fb.2.parent fb.1 fa.1 }

/-- `cycle.join()` (default comma separator), used by this variant's
circular-conflict deduplication. -/
def joinComma (l : List String) : String := joinSep "," l

/-- The recursive `detectCycle` of the solver-file variant: identical
traversal to the enhanced one, but a cycle conflict is pushed only when no
recorded circular conflict has the same comma-joined guest list. -/
def detectCycleGoA (cm : CMap) (guestKeys : List String) :
    Nat → String → List String → List String → DCState → DCState
  | 0, _, _, _, st => st
  | fuel + 1, guestKey, path, stack, st =>
    let st : DCState := { st with visited := setAdd st.visited guestKey }
    let stack := setAdd stack guestKey
    (cmRow cm guestKey).foldl
      (fun st2 e =>
        if e.2 == CVal.must && guestKeys.contains e.1 then
          if stack.contains e.1 then
            let cycleStart := jsIndexOf path e.1
            let cycle := jsSliceFrom path cycleStart ++ [e.1]
            if st2.conflicts.any (fun c =>
                c.type == ConflictType.circular
                  && joinComma c.affectedGuests == joinComma cycle) then st2
            else
              { st2 with conflicts := st2.conflicts ++
                  [⟨ConflictType.circular, Severity.high, cycle⟩] }
          else if !(st2.visited.contains e.1) then
            detectCycleGoA cm guestKeys fuel e.1 (path ++ [guestKey]) stack st2
          else st2
        else st2)
      st

/-- The must-group union-find of this variant's capacity pass. -/
def capacityDSU (guests : List Guest) (cm : CMap) : DSUState :=
  let dsu : DSUState := ⟨[]⟩
  let dsu := guests.foldl (fun st g => (st.find g.name).2) dsu
  cm.foldl
    (fun st e1 =>
      e1.2.foldl
        (fun st e2 => if e2.2 == CVal.must then st.union e1.1 e2.1 else st) st)
    dsu

/-- This variant groups by iterating the guest list (not the parent keys):
`for (const guest of guests) groups.get(dsu.find(guest.name)).push(guest.name)`. -/
def dsuGroupsOfGuests (guests : List Guest) (dsu : DSUState) :
    List (List String) :=
  let r := guests.foldl
    (fun (acc : List (String × List String) × DSUState) g =>
      let f := acc.2.find g.name
      (addToGroup acc.1 f.1 g.name, f.2))
    ([], dsu)
  r.1.map (fun e => e.2)

/-- The solver-file `detectConstraintConflicts` (the variant with the
adjacency-violation pass; the contradictory-pair pass is literally the same
code as the enhanced variant's and reuses `contradictionPass`). -/
def detectConstraintConflicts (guests : List Guest) (cm : CMap)
    (tables : List Table) (checkAdjacents : Bool) (adjacents : AdjMap) :
    List Conflict :=
  if guests.isEmpty || tables.isEmpty then []
  else
    let guestKeys := setOfList (guests.map (fun g => g.name))
    let st := guestKeys.foldl
      (fun (st : DCState) g =>
        if st.visited.contains g then st
        else detectCycleGoA cm guestKeys (guests.length + 1) g [g] [] st)
      ⟨[], []⟩
    let conflicts := contradictionPass cm st.conflicts
    let groups := dsuGroupsOfGuests guests (capacityDSU guests cm)
    let maxTableCapacity := maxCap tables
    let conflicts := groups.foldl
      (fun cfs group =>
        let totalSize := group.foldl
          (fun s n => s + (((guestLookup guests n).map (fun g => g.count)).getD 0)) 0
        if maxTableCapacity < totalSize then
          cfs ++ [⟨ConflictType.capacity_violation, Severity.critical, group⟩]
        else cfs)
      conflicts
    if checkAdjacents && !adjacents.isEmpty then
      (adjacents.foldl
        (fun (acc : List Conflict × List String) e =>
          let guest1Count :=
            ((guestLookup guests e.1).map (fun g => g.count)).getD 0
          let totalAdjacentSeats := e.2.foldl
            (fun s a => s + (((guestLookup guests a).map (fun g => g.count)).getD 0)) 0
          if maxTableCapacity < totalAdjacentSeats + guest1Count then
            let conflictKey :=
              joinSep "--" (List.insertionSort strLe (e.1 :: e.2))
            if acc.2.contains conflictKey then acc
            else
              (acc.1 ++ [⟨ConflictType.adjacency_violation, Severity.high, e.1 :: e.2⟩],
               acc.2 ++ [conflictKey])
          else acc)
        (conflicts, [])).1
    else conflicts

end VariantA

/-- The strategy rotation of the orchestrator. -/
def strategies : List DiversityStrategy :=
  [DiversityStrategy.shuffle, DiversityStrategy.reverse,
   DiversityStrategy.sizeFirst, DiversityStrategy.sizeLast,
   DiversityStrategy.randomPairs, DiversityStrategy.priorityFirst,
   DiversityStrategy.constraintHeavyFirst]

/-- The plan-sort relation `(b.score || 0) - (a.score || 0)` (every plan's
score is set before sorting). -/
def scoreLe (a b : SeatingPlan) : Prop := b.score ≤ a.score

instance : DecidableRel scoreLe := fun a b => by
  unfold scoreLe; infer_instance

/-- The `while (plans.length < maxPlans && attempts < maxAttempts)` search
loop of `generateSeatingPlans`.  The fuel is `maxAttempts - attempts`, so the
loop condition on `attempts` is the fuel pattern; `attempts` is incremented at
the top of the body and selects both the strategy and the attempt's
`Math.random` rows (`R attempts'`); the periodic zero-delay yield is a
scheduling no-op.  An accepted plan gets its score attached
(`(plan as any).score = scorePlan(...)`). -/
def searchLoop (R : Nat → Nat → Nat → Nat) (atomicGroups : List AtomicGroup)
    (tables : List Table) (cm : CMap) (adj : AdjMap) (asg : AsgMap)
    (maxPlans : Nat) : Nat → Nat → List SeatingPlan → List SeatingPlan
  | 0, _, plans => plans
  | fuel + 1, attempts, plans =>
    if plans.length < maxPlans then
      let attempts1 := attempts + 1
      let strategy := strategies.getD (attempts1 % strategies.length)
        DiversityStrategy.shuffle
      match generateSinglePlan (R attempts1) atomicGroups tables cm adj asg
          strategy with
      | some plan =>
        if isPlanSufficientlyUnique plan plans
            (JSQ.sub ⟨4, 5⟩ (JSQ.mul ⟨(plans.length : Int), 1⟩ ⟨1, 20⟩)) then
          searchLoop R atomicGroups tables cm adj asg maxPlans fuel attempts1
            (plans ++ [{ plan with score := scorePlan plan cm adj }])
        else searchLoop R atomicGroups tables cm adj asg maxPlans fuel attempts1 plans
      | none => searchLoop R atomicGroups tables cm adj asg maxPlans fuel attempts1 plans
    else plans

/-- The enhanced `generateSeatingPlans` orchestrator.  `R a` is the
`Math.random` row family used by attempt `a`. -/
def generateSeatingPlans (R : Nat → Nat → Nat → Nat) (guests : List Guest)
    (tables : List Table) (cm : CMap) (adj : AdjMap) (asg : AsgMap)
    (isPremium : Bool) : GenResult :=
  let errors := validateConstraints guests tables cm asg adj
  if errors.any (fun e => e.type == EKind.error) then ⟨[], errors⟩
  else
    let conflicts := detectConstraintConflicts guests cm tables true adj
    let criticalConflicts := conflicts.filter fun c => c.severity == Severity.critical
    if !criticalConflicts.isEmpty then
      ⟨[], errors ++
        [⟨"Critical constraint conflicts detected. Please resolve conflicts before generating plans.",
          EKind.error⟩]⟩
    else
      let atomicGroups := buildAtomicGroups guests cm adj
      let maxPlans := if isPremium then 30 else 10
      let maxAttempts := if isPremium then 500 else 200
      let plans := searchLoop R atomicGroups tables cm adj asg maxPlans
        maxAttempts 0 []
      let plans := List.insertionSort scoreLe plans
      if plans.isEmpty then
        ⟨[], errors ++
          [⟨"No valid seating plans could be generated. Try relaxing constraints or reducing adjacency links.",
            EKind.error⟩]⟩
      else ⟨plans, errors⟩

/-! ### Generic helper lemmas -/

/-- Occupancy of a seat list: the sum of the party sizes (`count` fields). -/
def occupancy (seats : List Guest) : Nat := (seats.map (fun g => g.count)).sum

lemma foldl_add_count (l : List Guest) (n : Nat) :
    l.foldl (fun s g => s + g.count) n = n + occupancy l := by
  induction l generalizing n with
  | nil => simp [occupancy]
  | cons g rest ih => simp [occupancy, ih, Nat.add_assoc] at *

lemma foldl_add_map {α M : Type} [AddCommMonoid M] (h : α → M) :
    ∀ (l : List α) (acc : M), l.foldl (fun a x => a + h x) acc = acc + (l.map h).sum
  | [], acc => by simp
  | x :: xs, acc => by
    simp [foldl_add_map h xs (acc + h x), add_assoc]

/-- A fold over the index range of `l` that applies `s` whenever the element
satisfies `p` is `s` iterated `countP p l` times. -/
lemma foldl_range_count {α M : Type} (d : α) (p : α → Bool) (s : M → M) :
    ∀ (l : List α) (acc : M),
      (List.range l.length).foldl
        (fun b j => if p (l.getD j d) then s b else b) acc
      = s^[l.countP p] acc
  | [], acc => by simp
  | x :: xs, acc => by
    rw [List.length_cons, List.range_succ_eq_map, List.foldl_cons, List.foldl_map]
    have hbody :
        (fun (b : M) (y : Nat) =>
            if p ((x :: xs).getD y.succ d) then s b else b)
          = fun b j => if p (xs.getD j d) then s b else b := by
      funext b j; simp
    rw [hbody, foldl_range_count d p s xs]
    rw [List.countP_cons]
    simp only [List.getD_cons_zero]
    by_cases hp : p x
    · simp [hp, Function.iterate_succ_apply]
    · simp [hp]

/-- Number of unordered position pairs `i < j` of a list whose elements
satisfy the binary predicate `p`. -/
def pairCount {α : Type} (p : α → α → Bool) : List α → Nat
  | [] => 0
  | x :: rest => rest.countP (p x) + pairCount p rest

/-- The nested `for i / for j in (i, length)` fold of the scoring passes is
`s` iterated once per satisfied unordered pair. -/
lemma foldl_range_pairs {α M : Type} (d : α) (p : α → α → Bool) (s : M → M) :
    ∀ (l : List α) (acc : M),
      (List.range l.length).foldl
        (fun a i =>
          ((List.range l.length).drop (i + 1)).foldl
            (fun b j => if p (l.getD i d) (l.getD j d) then s b else b) a) acc
      = s^[pairCount p l] acc
  | [], acc => by simp [pairCount]
  | x :: xs, acc => by
    rw [List.length_cons, List.range_succ_eq_map, List.foldl_cons]
    have hdrop0 : (0 :: (List.range xs.length).map Nat.succ).drop 1
        = (List.range xs.length).map Nat.succ := by simp
    have hinner0 :
        ((0 :: (List.range xs.length).map Nat.succ).drop (0 + 1)).foldl
          (fun b j =>
            if p ((x :: xs).getD 0 d) ((x :: xs).getD j d) then s b else b) acc
        = s^[xs.countP (p x)] acc := by
      rw [Nat.zero_add, hdrop0, List.foldl_map]
      have hbody : (fun (b : M) (y : Nat) =>
          if p ((x :: xs).getD 0 d) ((x :: xs).getD y.succ d) then s b else b)
          = fun b j => if p x (xs.getD j d) then s b else b := by
        funext b j; simp
      rw [hbody, foldl_range_count d (p x) s xs]
    rw [hinner0, List.foldl_map]
    have houter : (fun (a : M) (y : Nat) =>
        ((0 :: (List.range xs.length).map Nat.succ).drop (y.succ + 1)).foldl
          (fun b j =>
            if p ((x :: xs).getD y.succ d) ((x :: xs).getD j d) then s b else b) a)
        = fun a i =>
          ((List.range xs.length).drop (i + 1)).foldl
            (fun b j => if p (xs.getD i d) (xs.getD j d) then s b else b) a := by
      funext a i
      have hdrop : (0 :: (List.range xs.length).map Nat.succ).drop (i.succ + 1)
          = ((List.range xs.length).drop (i + 1)).map Nat.succ := by
        simp [List.map_drop]
      rw [hdrop, List.foldl_map]
      have hbody : (fun (b : M) (y : Nat) =>
          if p ((x :: xs).getD i.succ d) ((x :: xs).getD y.succ d) then s b else b)
          = fun b j => if p (xs.getD i d) (xs.getD j d) then s b else b := by
        funext b j; simp
      rw [hbody]
    rw [houter, foldl_range_pairs d p s xs]
    show s^[pairCount p xs] (s^[xs.countP (p x)] acc) = s^[pairCount p (x :: xs)] acc
    rw [← Function.iterate_add_apply]
    have : pairCount p xs + xs.countP (p x) = pairCount p (x :: xs) := by
      simp [pairCount, Nat.add_comm]
    rw [this]

lemma iterate_add_int (c : Int) : ∀ (n : Nat) (acc : Int),
    (fun z : Int => z + c)^[n] acc = acc + c * n
  | 0, acc => by simp
  | n + 1, acc => by
    rw [Function.iterate_succ_apply, iterate_add_int c n (acc + c)]
    push_cast; ring

lemma iterate_add_nat : ∀ (n : Nat) (acc : Nat),
    (fun z : Nat => z + 1)^[n] acc = acc + n
  | 0, acc => by simp
  | n + 1, acc => by
    rw [Function.iterate_succ_apply, iterate_add_nat n (acc + 1)]
    omega

/-! ### C6: the scoring formula -/

/-- The pair holds a `must` relation in either direction. -/
def mustRelB (cm : CMap) (g1 g2 : String) : Bool :=
  cmGet cm g1 g2 == some CVal.must || cmGet cm g2 g1 == some CVal.must

/-- The pair holds a `cannot` relation in either direction. -/
def cannotRelB (cm : CMap) (g1 g2 : String) : Bool :=
  cmGet cm g1 g2 == some CVal.cannot || cmGet cm g2 g1 == some CVal.cannot

/-- Number of seated guest units (seat entries) of a plan. -/
def seatEntries (plan : SeatingPlan) : Nat :=
  (plan.tables.map (fun t => t.seats.length)).sum

/-- Total occupancy of a plan: the sum of the seated party sizes. -/
def totalOccupancy (plan : SeatingPlan) : Nat :=
  (plan.tables.map (fun t => occupancy t.seats)).sum

/-- Number of co-seated unordered seat-entry pairs holding a must relation. -/
def planMustPairs (cm : CMap) (plan : SeatingPlan) : Nat :=
  (plan.tables.map (fun t =>
    pairCount (fun g1 g2 => mustRelB cm g1.name g2.name) t.seats)).sum

/-- Number of co-seated unordered seat-entry pairs holding a cannot relation. -/
def planCannotPairs (cm : CMap) (plan : SeatingPlan) : Nat :=
  (plan.tables.map (fun t =>
    pairCount (fun g1 g2 => cannotRelB cm g1.name g2.name) t.seats)).sum

/-- Number of adjacency-list entries of seated guests whose target name
appears among the same table's seated names. -/
def planAdjSatisfied (adj : AdjMap) (plan : SeatingPlan) : Nat :=
  (plan.tables.map (fun t =>
    (t.seats.map (fun g =>
      ((adjGet adj g.name).filter fun a =>
        (t.seats.map (fun x => x.name)).contains a).length)).sum)).sum

/-- The score formula exactly as claim C6 words it: 10 points per seated
individual (the total occupancy), 100 per must pair, -200 per cannot pair,
50 per satisfied adjacency preference, clamped at 0. -/
def scorePlanClaimed (plan : SeatingPlan) (cm : CMap) (adj : AdjMap) : Int :=
  max 0 ((totalOccupancy plan : Int) * 10
    + 100 * (planMustPairs cm plan : Int)
    - 200 * (planCannotPairs cm plan : Int)
    + 50 * (planAdjSatisfied adj plan : Int))

/-- The amended formula: identical except that the base term is 10 points
per seat entry (per seated party unit), not per individual. -/
def scorePlanSpec (plan : SeatingPlan) (cm : CMap) (adj : AdjMap) : Int :=
  max 0 ((seatEntries plan : Int) * 10
    + 100 * (planMustPairs cm plan : Int)
    - 200 * (planCannotPairs cm plan : Int)
    + 50 * (planAdjSatisfied adj plan : Int))

/-- The must-bonus pass of `scorePlan`, named for decomposition (definitionally
equal to the corresponding inline fold). -/
def scoreMustPass (cm : CMap) (tables : List PTable) (acc : Int) : Int :=
  tables.foldl
    (fun sc table =>
      (List.range table.seats.length).foldl
        (fun sc1 i =>
          ((List.range table.seats.length).drop (i + 1)).foldl
            (fun sc2 j =>
              let g1 := (table.seats.getD i ⟨"", 0⟩).name
              let g2 := (table.seats.getD j ⟨"", 0⟩).name
              if cmGet cm g1 g2 == some CVal.must
                  || cmGet cm g2 g1 == some CVal.must then
                sc2 + 100
              else sc2)
            sc1)
        sc)
    acc

/-- The cannot-violation counting pass of `scorePlan`. -/
def scoreCannotPass (cm : CMap) (tables : List PTable) : Nat :=
  tables.foldl
    (fun n table =>
      (List.range table.seats.length).foldl
        (fun n1 i =>
          ((List.range table.seats.length).drop (i + 1)).foldl
            (fun n2 j =>
              let g1 := (table.seats.getD i ⟨"", 0⟩).name
              let g2 := (table.seats.getD j ⟨"", 0⟩).name
              if cmGet cm g1 g2 == some CVal.cannot
                  || cmGet cm g2 g1 == some CVal.cannot then
                n2 + 1
              else n2)
            n1)
        n)
    0

/-- The adjacency-bonus pass of `scorePlan`. -/
def scoreAdjPass (adj : AdjMap) (tables : List PTable) (acc : Int) : Int :=
  tables.foldl
    (fun sc table =>
      let seatedNames := table.seats.map (fun g => g.name)
      table.seats.foldl
        (fun sc2 guest =>
          let satisfied :=
            ((adjGet adj guest.name).filter fun a => seatedNames.contains a).length
          sc2 + (satisfied : Int) * 50)
        sc)
    acc

lemma scorePlan_decomp (plan : SeatingPlan) (cm : CMap) (adj : AdjMap) :
    scorePlan plan cm adj
      = max 0 (scoreAdjPass adj plan.tables
          (scoreMustPass cm plan.tables
              (if 0 < (plan.tables.map (fun t => t.seats)).flatten.length then
                ((plan.tables.map (fun t => t.seats)).flatten.length : Int) * 10
              else 0)
            - (scoreCannotPass cm plan.tables : Int) * 200)) := rfl

lemma sum_map_mul_cast {α : Type} (c : Int) (f : α → Nat) (l : List α) :
    (l.map (fun x => c * (f x : Int))).sum = c * ((l.map f).sum : Int) := by
  induction l with
  | nil => simp
  | cons x xs ih =>
    simp only [List.map_cons, List.sum_cons, ih]
    push_cast
    ring

lemma scoreMustPass_eq (cm : CMap) (tables : List PTable) (acc : Int) :
    scoreMustPass cm tables acc
      = acc + 100 * ((tables.map (fun t =>
          pairCount (fun g1 g2 => mustRelB cm g1.name g2.name) t.seats)).sum : Int) := by
  unfold scoreMustPass
  have hstep : (fun (sc : Int) (table : PTable) =>
      (List.range table.seats.length).foldl
        (fun sc1 i =>
          ((List.range table.seats.length).drop (i + 1)).foldl
            (fun sc2 j =>
              let g1 := (table.seats.getD i ⟨"", 0⟩).name
              let g2 := (table.seats.getD j ⟨"", 0⟩).name
              if cmGet cm g1 g2 == some CVal.must
                  || cmGet cm g2 g1 == some CVal.must then
                sc2 + 100
              else sc2)
            sc1)
        sc)
      = fun sc table => sc + (100 : Int)
          * (pairCount (fun g1 g2 => mustRelB cm g1.name g2.name) table.seats : Int) := by
    funext sc table
    have h := foldl_range_pairs (⟨"", 0⟩ : Guest)
      (fun g1 g2 => mustRelB cm g1.name g2.name) (fun z : Int => z + 100)
      table.seats sc
    rw [iterate_add_int] at h
    exact h.trans (by ring)
  rw [hstep, foldl_add_map, sum_map_mul_cast]

lemma scoreCannotPass_eq (cm : CMap) (tables : List PTable) :
    scoreCannotPass cm tables
      = (tables.map (fun t =>
          pairCount (fun g1 g2 => cannotRelB cm g1.name g2.name) t.seats)).sum := by
  unfold scoreCannotPass
  have hstep : (fun (n : Nat) (table : PTable) =>
      (List.range table.seats.length).foldl
        (fun n1 i =>
          ((List.range table.seats.length).drop (i + 1)).foldl
            (fun n2 j =>
              let g1 := (table.seats.getD i ⟨"", 0⟩).name
              let g2 := (table.seats.getD j ⟨"", 0⟩).name
              if cmGet cm g1 g2 == some CVal.cannot
                  || cmGet cm g2 g1 == some CVal.cannot then
                n2 + 1
              else n2)
            n1)
        n)
      = fun n table => n
          + pairCount (fun g1 g2 => cannotRelB cm g1.name g2.name) table.seats := by
    funext n table
    have h := foldl_range_pairs (⟨"", 0⟩ : Guest)
      (fun g1 g2 => cannotRelB cm g1.name g2.name) (fun z : Nat => z + 1)
      table.seats n
    rw [iterate_add_nat] at h
    exact h
  rw [hstep, foldl_add_map]
  simp

lemma scoreAdjPass_eq (adj : AdjMap) (tables : List PTable) (acc : Int) :
    scoreAdjPass adj tables acc
      = acc + 50 * (((tables.map (fun t =>
          ((t.seats.map (fun g =>
            ((adjGet adj g.name).filter fun a =>
              (t.seats.map (fun x => x.name)).contains a).length)).sum : Nat))).sum : Nat) : Int) := by
  unfold scoreAdjPass
  have hstep : (fun (sc : Int) (table : PTable) =>
      let seatedNames := table.seats.map (fun g => g.name)
      table.seats.foldl
        (fun sc2 guest =>
          let satisfied :=
            ((adjGet adj guest.name).filter fun a => seatedNames.contains a).length
          sc2 + (satisfied : Int) * 50)
        sc)
      = fun sc table => sc + (50 : Int)
          * ((table.seats.map (fun g =>
              ((adjGet adj g.name).filter fun a =>
                (table.seats.map (fun x => x.name)).contains a).length)).sum : Int) := by
    funext sc table
    have h := foldl_add_map
      (fun guest : Guest =>
        ((((adjGet adj guest.name).filter fun a =>
          (table.seats.map (fun g => g.name)).contains a).length : Nat) : Int) * 50)
      table.seats sc
    refine h.trans ?_
    congr 1
    have hc : (fun guest : Guest =>
        ((((adjGet adj guest.name).filter fun a =>
          (table.seats.map (fun g => g.name)).contains a).length : Nat) : Int) * 50)
        = fun guest : Guest => (50 : Int) *
          ((((adjGet adj guest.name).filter fun a =>
            (table.seats.map (fun g => g.name)).contains a).length : Nat) : Int) := by
      funext g; ring
    rw [hc, sum_map_mul_cast]
  rw [hstep, foldl_add_map, sum_map_mul_cast]

lemma scorePlan_eq_spec (plan : SeatingPlan) (cm : CMap) (adj : AdjMap) :
    scorePlan plan cm adj = scorePlanSpec plan cm adj := by
  rw [scorePlan_decomp, scoreAdjPass_eq, scoreMustPass_eq, scoreCannotPass_eq]
  unfold scorePlanSpec planMustPairs planCannotPairs planAdjSatisfied seatEntries
  have hlen : (plan.tables.map (fun t => t.seats)).flatten.length
      = (plan.tables.map (fun t => t.seats.length)).sum := by
    rw [List.length_flatten, List.map_map]
    rfl
  rw [hlen]
  by_cases h : 0 < (plan.tables.map (fun t => t.seats.length)).sum
  · rw [if_pos h]
    ring_nf
  · have h0 : (plan.tables.map (fun t => t.seats.length)).sum = 0 := by omega
    rw [if_neg h, h0]
    ring_nf

/-- C6 counterexample: for the plan seating one party of two (`count = 2`),
`scorePlan` returns 10 (10 per seat entry), while the claimed formula — 10
points per seated individual, i.e. per unit of occupancy — gives 20.  So the
claim as stated is false at this input. -/
theorem C6_counterexample :
    scorePlan ⟨0, [⟨1, [⟨"A", 2⟩], 4⟩], 0⟩ [] []
      ≠ scorePlanClaimed ⟨0, [⟨1, [⟨"A", 2⟩], 4⟩], 0⟩ [] [] := by
  decide

/-- C6 (amended): `scorePlan` returns `max 0 S` where `S` is 10 points per
*seat entry* (seated party unit) — not per individual — plus 100 per co-seated
unordered seat-entry pair holding a must relation, minus 200 per co-seated
pair holding a cannot relation, plus 50 for each adjacency-list entry of a
seated guest whose target appears among the same table's seated names. -/
theorem C6_scorePlan_amended (plan : SeatingPlan) (cm : CMap) (adj : AdjMap) :
    scorePlan plan cm adj = scorePlanSpec plan cm adj :=
  scorePlan_eq_spec plan cm adj

/-- C5: on the three-guest must cycle A→B→C→A the detector does emit one
`circular` conflict of `high` severity, but its `affectedGuests` list is
`["A", "A", "B", "A"]`: the recursion extends the path with the *current*
node instead of the entered one, so the deepest cycle member C is missing
(and A is duplicated), contradicting the claim that all three of A, B, C are
named.  The solver-file variant's `detectCycle` builds the same path. -/
theorem C5_cycle_conflict_misses_deepest_guest :
    detectConstraintConflicts [⟨"A", 1⟩, ⟨"B", 1⟩, ⟨"C", 1⟩]
        [("A", [("B", CVal.must)]), ("B", [("C", CVal.must)]),
         ("C", [("A", CVal.must)])]
        [⟨1, 3⟩] true []
      = [⟨ConflictType.circular, Severity.high, ["A", "A", "B", "A"]⟩] := by
  decide

/-! ### JS set / map helper lemmas -/

lemma setAdd_eq (s : List String) (x : String) :
    setAdd s x = if x ∈ s then s else s ++ [x] := by
  unfold setAdd
  by_cases h : x ∈ s
  · rw [if_pos (List.elem_iff.2 h), if_pos h]
  · rw [if_neg (fun hc => h (List.elem_iff.1 hc)), if_neg h]

lemma setAdd_nodup {s : List String} {x : String} (h : s.Nodup) :
    (setAdd s x).Nodup := by
  rw [setAdd_eq]
  by_cases hc : x ∈ s
  · rwa [if_pos hc]
  · rw [if_neg hc]
    simp [List.nodup_append, h, hc]

lemma foldl_setAdd_nodup : ∀ (l acc : List String), acc.Nodup →
    (l.foldl setAdd acc).Nodup
  | [], _, h => h
  | x :: xs, acc, h => foldl_setAdd_nodup xs (setAdd acc x) (setAdd_nodup h)

lemma setOfList_nodup (l : List String) : (setOfList l).Nodup :=
  foldl_setAdd_nodup l [] List.nodup_nil

lemma foldl_setAdd_eq_append : ∀ (l acc : List String), (acc ++ l).Nodup →
    l.foldl setAdd acc = acc ++ l
  | [], acc, _ => by simp
  | x :: xs, acc, h => by
    have hx : x ∉ acc := by
      intro hmem
      have := (List.nodup_append.1 h).2.2
      exact this hmem (by simp)
    have hadd : setAdd acc x = acc ++ [x] := by
      rw [setAdd_eq, if_neg hx]
    rw [List.foldl_cons, hadd, foldl_setAdd_eq_append xs (acc ++ [x]) (by simpa using h)]
    simp

lemma setOfList_eq_self {l : List String} (h : l.Nodup) : setOfList l = l := by
  rw [setOfList, foldl_setAdd_eq_append l [] (by simpa using h)]
  simp

/-! ### guestLookup lemmas -/

lemma guestLookup_eq_some {gs : List Guest} {n : String} {g : Guest}
    (h : guestLookup gs n = some g) : g ∈ gs ∧ g.name = n := by
  unfold guestLookup at h
  refine ⟨?_, ?_⟩
  · exact List.mem_reverse.1 (List.mem_of_find?_eq_some h)
  · have := List.find?_some h
    simpa using this

lemma guestLookup_isSome {gs : List Guest} {n : String}
    (h : n ∈ gs.map Guest.name) : (guestLookup gs n).isSome := by
  rw [guestLookup, List.find?_isSome]
  obtain ⟨g, hg, rfl⟩ := List.mem_map.1 h
  exact ⟨g, List.mem_reverse.2 hg, by simp⟩

lemma guestLookup_self {gs : List Guest} (hn : (gs.map Guest.name).Nodup)
    {g : Guest} (hg : g ∈ gs) : guestLookup gs g.name = some g := by
  cases hfind : guestLookup gs g.name with
  | none =>
    have := guestLookup_isSome
      (show g.name ∈ gs.map Guest.name from List.mem_map.2 ⟨g, hg, rfl⟩)
    rw [hfind] at this
    simp at this
  | some g' =>
    obtain ⟨hm, he⟩ := guestLookup_eq_some hfind
    have := List.inj_on_of_nodup_map hn hm hg he
    rw [this]

/-! ### `optimizeSeatingOrder` is a permutation (C10 and reorder lemmas) -/

lemma optLoop_perm (adj : AdjMap) (gmap : String → Option Guest) :
    ∀ (fuel : Nat) (available : List String) (cur : Guest),
      available.length ≤ fuel →
      (∀ n ∈ available, ∃ g, gmap n = some g ∧ g.name = n) →
      List.Perm (optLoop adj gmap fuel cur available) (available.filterMap gmap)
  | 0, available, _, hle, _ => by
    have : available = [] := List.length_eq_zero.1 (Nat.le_zero.1 hle)
    subst this
    simp [optLoop]
  | fuel + 1, available, cur, hle, hp => by
    have hend : ∀ g : Guest, g.name ∈ available → gmap g.name = some g →
        List.Perm (g :: optLoop adj gmap fuel g (available.erase g.name))
          (available.filterMap gmap) := by
      intro g hmem hg
      have hle' : (available.erase g.name).length ≤ fuel := by
        rw [List.length_erase_of_mem hmem]
        omega
      have hp' : ∀ n ∈ available.erase g.name, ∃ g', gmap n = some g' ∧ g'.name = n :=
        fun n hn => hp n (List.mem_of_mem_erase hn)
      have ih := optLoop_perm adj gmap fuel (available.erase g.name) g hle' hp'
      have hperm : List.Perm available (g.name :: available.erase g.name) :=
        List.perm_cons_erase hmem
      have hfm : List.Perm (available.filterMap gmap)
          (g :: (available.erase g.name).filterMap gmap) := by
        have := hperm.filterMap gmap
        rwa [List.filterMap_cons, hg] at this
      exact (ih.cons g).trans hfm.symm
    by_cases hemp : available.isEmpty
    · have : available = [] := by simpa [List.isEmpty_iff] using hemp
      subst this
      simp [optLoop]
    · have hemp' : available.isEmpty = false := by simpa using hemp
      have havail : available ≠ [] := by simpa [List.isEmpty_iff] using hemp
      cases hfind : (adjGet adj cur.name).find? (fun a => available.contains a) with
      | some n =>
        have hn : n ∈ available := by
          have := List.find?_some hfind
          exact List.elem_iff.1 this
        obtain ⟨g, hg, hname⟩ := hp n hn
        subst hname
        have hgoal : optLoop adj gmap (fuel + 1) cur available
            = g :: optLoop adj gmap fuel g (available.erase g.name) := by
          simp only [optLoop, hemp', Bool.false_eq_true, if_false, hfind, hg,
            Option.isSome_some, if_true]
        rw [hgoal]
        exact hend g hn hg
      | none =>
        obtain ⟨h, rest, rfl⟩ := List.exists_cons_of_ne_nil havail
        obtain ⟨g, hg, hname⟩ := hp h (by simp)
        have hgoal : optLoop adj gmap (fuel + 1) cur (h :: rest)
            = g :: optLoop adj gmap fuel g ((h :: rest).erase g.name) := by
          simp only [optLoop, hemp', Bool.false_eq_true, if_false, hfind,
            List.head?_cons]
          rw [show (some h).bind gmap = gmap h from rfl, hg]
        rw [hgoal]
        exact hend g (by simp [hname]) (hname ▸ hg)

lemma filterMap_eq_self_of {α : Type} (f : α → Option α) :
    ∀ (l : List α), (∀ x ∈ l, f x = some x) → l.filterMap f = l
  | [], _ => rfl
  | x :: xs, h => by
    rw [List.filterMap_cons, h x (by simp),
      filterMap_eq_self_of f xs (fun y hy => h y (by simp [hy]))]

lemma optimizeSeatingOrder_perm (gs : List Guest) (adj : AdjMap)
    (h : (gs.map (fun g => g.name)).Nodup) :
    List.Perm (optimizeSeatingOrder gs adj) gs := by
  unfold optimizeSeatingOrder
  by_cases hlen : gs.length ≤ 1
  · rw [if_pos hlen]
  · rw [if_neg hlen]
    have hne : gs ≠ [] := by
      intro hnil
      rw [hnil] at hlen
      simp at hlen
    have hnames : setOfList (gs.map (fun g => g.name)) = gs.map (fun g => g.name) :=
      setOfList_eq_self h
    have key : ∀ cur : Guest, cur ∈ gs →
        List.Perm (cur :: optLoop adj (guestLookup gs)
          ((setOfList (gs.map (fun g => g.name))).erase cur.name).length cur
          ((setOfList (gs.map (fun g => g.name))).erase cur.name)) gs := by
      intro cur hcur
      have hmemname : cur.name ∈ setOfList (gs.map (fun g => g.name)) := by
        rw [hnames]
        exact List.mem_map.2 ⟨cur, hcur, rfl⟩
      have hperm0 : List.Perm (setOfList (gs.map (fun g => g.name)))
          (cur.name :: (setOfList (gs.map (fun g => g.name))).erase cur.name) :=
        List.perm_cons_erase hmemname
      have hp : ∀ n ∈ (setOfList (gs.map (fun g => g.name))).erase cur.name,
          ∃ g, guestLookup gs n = some g ∧ g.name = n := by
        intro n hn
        have hnmem : n ∈ gs.map (fun g => g.name) := by
          rw [← hnames]
          exact List.mem_of_mem_erase hn
        obtain ⟨g, hg, rfl⟩ := List.mem_map.1 hnmem
        exact ⟨g, guestLookup_self h hg, rfl⟩
      have hloop := optLoop_perm adj (guestLookup gs)
        ((setOfList (gs.map (fun g => g.name))).erase cur.name).length
        ((setOfList (gs.map (fun g => g.name))).erase cur.name) cur le_rfl hp
      have hfm_names : (setOfList (gs.map (fun g => g.name))).filterMap (guestLookup gs)
          = gs := by
        rw [hnames, List.filterMap_map]
        exact filterMap_eq_self_of _ gs (fun g hg => guestLookup_self h hg)
      have hcons : List.Perm
          ((setOfList (gs.map (fun g => g.name))).filterMap (guestLookup gs))
          (cur :: ((setOfList (gs.map (fun g => g.name))).erase cur.name).filterMap
            (guestLookup gs)) := by
        have := hperm0.filterMap (guestLookup gs)
        rwa [List.filterMap_cons, guestLookup_self h hcur] at this
      refine ((hloop.cons cur).trans hcons.symm).trans ?_
      rw [hfm_names]
    have hcur : ((gs.find? fun g => nameIsPriority g.name).getD (gs.headD ⟨"", 0⟩)) ∈ gs := by
      cases hf : gs.find? (fun g => nameIsPriority g.name) with
      | some g =>
        simp only [hf, Option.getD_some]
        exact List.mem_of_find?_eq_some hf
      | none =>
        simp only [hf, Option.getD_none]
        cases gs with
        | nil => exact absurd rfl hne
        | cons a l => simp [List.headD]
    exact key _ hcur

/-- C10: on a table-guest list with pairwise-distinct names,
`optimizeSeatingOrder` returns a permutation of its input: same length, same
guests, none added, dropped or duplicated. -/
theorem C10_optimizeSeatingOrder_perm (tableGuests : List Guest) (adj : AdjMap)
    (h : (tableGuests.map (fun g => g.name)).Nodup) :
    List.Perm (optimizeSeatingOrder tableGuests adj) tableGuests :=
  optimizeSeatingOrder_perm tableGuests adj h

/-- C10 witness: a concrete three-guest table with an adjacency preference. -/
theorem C10_witness :
    List.Perm
      (optimizeSeatingOrder [⟨"A", 1⟩, ⟨"B", 2⟩, ⟨"C", 1⟩] [("A", ["C"])])
      [⟨"A", 1⟩, ⟨"B", 2⟩, ⟨"C", 1⟩] :=
  C10_optimizeSeatingOrder_perm [⟨"A", 1⟩, ⟨"B", 2⟩, ⟨"C", 1⟩] [("A", ["C"])]
    (by decide)

/-! ### C7: the uniqueness filter -/

lemma foldl_preserve {σ α : Type} (f : σ → α → σ) (P : σ → Prop) :
    ∀ (l : List α) (s : σ), (∀ s x, x ∈ l → P s → P (f s x)) → P s →
      P (l.foldl f s)
  | [], _, _, hs => hs
  | x :: xs, s, hstep, hs =>
    foldl_preserve f P xs (f s x)
      (fun s' y hy => hstep s' y (List.mem_cons_of_mem _ hy))
      (hstep s x (by simp) hs)

lemma foldl_trigger {σ α : Type} (f : σ → α → σ) (P Q : σ → Prop) :
    ∀ (l : List α) (x : α), x ∈ l →
      (∀ s y, y ∈ l → P s → P (f s y)) →
      (∀ s y, y ∈ l → Q s → Q (f s y)) →
      (∀ s, P s → Q (f s x)) →
      ∀ s, P s → Q (l.foldl f s)
  | [], x, hx, _, _, _, _, _ => absurd hx (by simp)
  | y :: ys, x, hx, hmonoP, hmonoQ, htrig, s, hs => by
    rcases List.mem_cons.1 hx with rfl | hmem
    · exact foldl_preserve f Q ys (f s x)
        (fun s' z hz => hmonoQ s' z (List.mem_cons_of_mem _ hz)) (htrig s hs)
    · exact foldl_trigger f P Q ys x hmem
        (fun s' z hz => hmonoP s' z (List.mem_cons_of_mem _ hz))
        (fun s' z hz => hmonoQ s' z (List.mem_cons_of_mem _ hz))
        htrig (f s y) (hmonoP s y (by simp) hs)

/-! ### Injectivity of the `'--'`-joined sort keys for dash-free names -/

/-- No `'-'` occurs in the string (the sufficient condition under which the
`join('--')` pair/dedup keys are collision-free). -/
def dashFree (s : String) : Prop := '-' ∉ s.data

instance (s : String) : Decidable (dashFree s) := by
  unfold dashFree; infer_instance

lemma sep_split_unique : ∀ (x y r1 r2 : List Char), '-' ∉ x → '-' ∉ y →
    x ++ '-' :: '-' :: r1 = y ++ '-' :: '-' :: r2 → x = y ∧ r1 = r2
  | [], [], r1, r2, _, _, h => ⟨rfl, by simpa using h⟩
  | [], c :: y', r1, r2, _, hy, h => by
    rw [List.nil_append, List.cons_append] at h
    have : c = '-' := (List.cons.injEq _ _ _ _ ▸ h).1.symm
    exact absurd (this ▸ List.mem_cons_self c y') hy
  | c :: x', [], r1, r2, hx, _, h => by
    rw [List.nil_append, List.cons_append] at h
    have : c = '-' := (List.cons.injEq _ _ _ _ ▸ h).1
    exact absurd (this ▸ List.mem_cons_self c x') hx
  | c :: x', d :: y', r1, r2, hx, hy, h => by
    rw [List.cons_append, List.cons_append] at h
    have h1 := (List.cons.injEq _ _ _ _ ▸ h).1
    have h2 := (List.cons.injEq _ _ _ _ ▸ h).2
    obtain ⟨hxy, hr⟩ := sep_split_unique x' y' r1 r2
      (fun hm => hx (List.mem_cons_of_mem _ hm))
      (fun hm => hy (List.mem_cons_of_mem _ hm)) h2
    exact ⟨by rw [h1, hxy], hr⟩

lemma string_data_inj {a b : String} (h : a.data = b.data) : a = b := by
  cases a
  cases b
  exact congrArg String.mk h

lemma string_append_data (a b : String) : (a ++ b).data = a.data ++ b.data := rfl

lemma joinSep_dd_inj : ∀ (l1 l2 : List String), l1 ≠ [] → l2 ≠ [] →
    (∀ s ∈ l1, dashFree s) → (∀ s ∈ l2, dashFree s) →
    joinSep "--" l1 = joinSep "--" l2 → l1 = l2
  | [], _, h, _, _, _, _ => absurd rfl h
  | _ :: _, [], _, h, _, _, _ => absurd rfl h
  | [x], [y], _, _, _, _, h => by
    rw [joinSep, joinSep] at h
    rw [h]
  | [x], y1 :: y2 :: r2, _, _, hd1, hd2, h => by
    exfalso
    rw [joinSep, joinSep] at h
    have hmem : '-' ∈ x.data := by
      rw [h, string_append_data, string_append_data]
      simp
    exact hd1 x (by simp) hmem
  | x1 :: x2 :: r1, [y], _, _, hd1, hd2, h => by
    exfalso
    rw [joinSep, joinSep] at h
    have hmem : '-' ∈ y.data := by
      rw [← h, string_append_data, string_append_data]
      simp
    exact hd2 y (by simp) hmem
  | x1 :: x2 :: r1, y1 :: y2 :: r2, _, _, hd1, hd2, h => by
    rw [joinSep, joinSep] at h
    have hd := congrArg String.data h
    rw [string_append_data, string_append_data, string_append_data,
      string_append_data] at hd
    have hsep : ("--" : String).data = ['-', '-'] := rfl
    rw [List.append_assoc, List.append_assoc, hsep] at hd
    simp only [List.cons_append, List.nil_append] at hd
    obtain ⟨hx, hr⟩ := sep_split_unique x1.data y1.data
      (joinSep "--" (x2 :: r1)).data (joinSep "--" (y2 :: r2)).data
      (hd1 x1 (by simp)) (hd2 y1 (by simp)) hd
    have h1 : x1 = y1 := string_data_inj hx
    have h2 : joinSep "--" (x2 :: r1) = joinSep "--" (y2 :: r2) := string_data_inj hr
    have := joinSep_dd_inj (x2 :: r1) (y2 :: r2) (by simp) (by simp)
      (fun s hs => hd1 s (List.mem_cons_of_mem _ hs))
      (fun s hs => hd2 s (List.mem_cons_of_mem _ hs)) h2
    rw [h1, this]

lemma insertionSort_pair (a b : String) :
    List.insertionSort strLe [a, b] = [a, b]
      ∨ List.insertionSort strLe [a, b] = [b, a] := by
  simp only [List.insertionSort, List.orderedInsert]
  by_cases h : strLe a b
  · left
    rw [if_pos h]
  · right
    rw [if_neg h]

lemma pairKeyOf_inj {a b c d : String} (ha : dashFree a) (hb : dashFree b)
    (hc : dashFree c) (hd : dashFree d) (h : pairKeyOf a b = pairKeyOf c d) :
    (a = c ∧ b = d) ∨ (a = d ∧ b = c) := by
  unfold pairKeyOf at h
  have hsort := joinSep_dd_inj (List.insertionSort strLe [a, b])
    (List.insertionSort strLe [c, d])
    (by rcases insertionSort_pair a b with h1 | h1 <;> rw [h1] <;> simp)
    (by rcases insertionSort_pair c d with h1 | h1 <;> rw [h1] <;> simp)
    (by
      intro s hs
      have hm := (List.perm_insertionSort strLe [a, b]).mem_iff.1 hs
      rcases List.mem_cons.1 hm with h1 | hmem
      · rw [h1]
        exact ha
      · have hsb := List.mem_singleton.1 hmem
        rw [hsb]
        exact hb)
    (by
      intro s hs
      have hm := (List.perm_insertionSort strLe [c, d]).mem_iff.1 hs
      rcases List.mem_cons.1 hm with h1 | hmem
      · rw [h1]
        exact hc
      · have hsd := List.mem_singleton.1 hmem
        rw [hsd]
        exact hd)
    h
  rcases insertionSort_pair a b with h1 | h1 <;>
    rcases insertionSort_pair c d with h2 | h2 <;> rw [h1, h2] at hsort
  · obtain ⟨h3, h4⟩ : a = c ∧ b = d := by simpa using hsort
    exact Or.inl ⟨h3, h4⟩
  · obtain ⟨h3, h4⟩ : a = d ∧ b = c := by simpa using hsort
    exact Or.inr ⟨h3, h4⟩
  · obtain ⟨h3, h4⟩ : b = c ∧ a = d := by simpa using hsort
    exact Or.inr ⟨h4, h3⟩
  · obtain ⟨h3, h4⟩ : b = d ∧ a = c := by simpa using hsort
    exact Or.inl ⟨h4, h3⟩

lemma mapGet_of_nodup {β : Type} :
    ∀ {m : List (String × β)}, (m.map (fun e => e.1)).Nodup →
      ∀ {k : String} {v : β}, (k, v) ∈ m → mapGet m k = some v := by
  intro m
  induction m with
  | nil => intro _ k v hm; simp at hm
  | cons e rest ih =>
    intro hnd k v hm
    rcases List.mem_cons.1 hm with rfl | hmem
    · unfold mapGet
      rw [List.find?_cons_of_pos _ (by simp)]
      rfl
    · have hk : k ≠ e.1 := by
        intro heq
        have : k ∈ rest.map (fun e => e.1) := List.mem_map.2 ⟨(k, v), hmem, rfl⟩
        rw [List.map_cons, List.nodup_cons] at hnd
        exact hnd.1 (heq ▸ this)
      unfold mapGet
      rw [List.find?_cons_of_neg _ (by simp [Ne.symm hk, hk])]
      have := ih (by rw [List.map_cons, List.nodup_cons] at hnd; exact hnd.2) hmem
      unfold mapGet at this
      exact this

lemma cmGet_entry {cm : CMap} {A B : String} {v : CVal}
    (h : cmGet cm A B = some v) : ∃ row, (A, row) ∈ cm ∧ (B, v) ∈ row := by
  unfold cmGet at h
  cases hf : mapGet cm A with
  | none => rw [hf] at h; exact absurd h (by simp)
  | some row =>
    rw [hf] at h
    have h2 : Option.map (fun e => e.2) (row.find? (fun e => e.1 == B)) = some v := h
    refine ⟨row, ?_, ?_⟩
    · unfold mapGet at hf
      cases hfind : cm.find? (fun e => e.1 == A) with
      | none => rw [hfind] at hf; exact absurd hf (by simp)
      | some e0 =>
        rw [hfind] at hf
        have he0 : e0.2 = row := by simpa using hf
        have hA : e0.1 = A := by simpa using List.find?_some hfind
        have := List.mem_of_find?_eq_some hfind
        rw [← hA, ← he0]
        simpa using this
    · cases hfind : row.find? (fun e => e.1 == B) with
      | none => rw [hfind] at h2; exact absurd h2 (by simp)
      | some e1 =>
        rw [hfind] at h2
        have hv : e1.2 = v := by simpa using h2
        have hB : e1.1 = B := by simpa using List.find?_some hfind
        have := List.mem_of_find?_eq_some hfind
        rw [← hB, ← hv]
        simpa using this

lemma cmGet_of_entries {cm : CMap} (hkeys : (cm.map (fun e => e.1)).Nodup)
    (hrows : ∀ e ∈ cm, (e.2.map (fun x => x.1)).Nodup)
    {A : String} {row : List (String × CVal)} {B : String} {v : CVal}
    (hA : (A, row) ∈ cm) (hB : (B, v) ∈ row) : cmGet cm A B = some v := by
  unfold cmGet
  rw [show mapGet cm A = some row from mapGet_of_nodup hkeys hA]
  exact mapGet_of_nodup (hrows (A, row) hA) hB

/-! ### C4: impossible pairs -/

/-- One step of the contradictory-pair pass (definitionally the loop body of
`contradictionPass` for the outer entry `e1`). -/
def contraStep (cm : CMap) (e1 : String × List (String × CVal))
    (acc2 : List Conflict × List String) (e2 : String × CVal) :
    List Conflict × List String :=
  let pairKey := pairKeyOf e1.1 e2.1
  if acc2.2.contains pairKey then acc2
  else
    let rev := cmGet cm e2.1 e1.1
    let cfs :=
      if (e2.2 == CVal.must && rev == some CVal.cannot)
          || (e2.2 == CVal.cannot && rev == some CVal.must) then
        acc2.1 ++ [⟨ConflictType.impossible, Severity.critical, [e1.1, e2.1]⟩]
      else acc2.1
    (cfs, acc2.2 ++ [pairKey])

lemma contradictionPass_eq (cm : CMap) (conflicts : List Conflict) :
    contradictionPass cm conflicts
      = (cm.foldl (fun acc e1 => e1.2.foldl (contraStep cm e1) acc)
          (conflicts, [])).1 := rfl

/-- The invariant of the contradictory-pair pass: once the pair key of
`(A, B)` has entered `checkedPairs`, a matching impossible conflict has been
recorded. -/
def impossibleInv (A B : String) (st : List Conflict × List String) : Prop :=
  pairKeyOf A B ∈ st.2 →
    ∃ c ∈ st.1, c.type = ConflictType.impossible
      ∧ c.severity = Severity.critical
      ∧ (c.affectedGuests = [A, B] ∨ c.affectedGuests = [B, A])

lemma contraStep_conflict_mono {cm : CMap} {e1 : String × List (String × CVal)}
    {st : List Conflict × List String} {e2 : String × CVal} {c : Conflict}
    (hc : c ∈ st.1) : c ∈ (contraStep cm e1 st e2).1 := by
  unfold contraStep
  by_cases h : st.2.contains (pairKeyOf e1.1 e2.1)
  · rw [if_pos h]
    exact hc
  · rw [if_neg h]
    by_cases hcond : (e2.2 == CVal.must && cmGet cm e2.1 e1.1 == some CVal.cannot)
        || (e2.2 == CVal.cannot && cmGet cm e2.1 e1.1 == some CVal.must)
    · simp only [hcond, if_pos]
      exact List.mem_append_left _ hc
    · simp only [hcond, if_neg, Bool.false_eq_true]
      exact hc

lemma contraStep_checked_mono {cm : CMap} {e1 : String × List (String × CVal)}
    {st : List Conflict × List String} {e2 : String × CVal} {x : String}
    (hx : x ∈ st.2) : x ∈ (contraStep cm e1 st e2).2 := by
  unfold contraStep
  by_cases h : st.2.contains (pairKeyOf e1.1 e2.1)
  · rw [if_pos h]
    exact hx
  · rw [if_neg h]
    exact List.mem_append_left _ hx

lemma contraStep_preserves {cm : CMap} {A B : String}
    (hkeys : (cm.map (fun e => e.1)).Nodup)
    (hrows : ∀ e ∈ cm, (e.2.map (fun x => x.1)).Nodup)
    (hdash : ∀ e ∈ cm, dashFree e.1 ∧ ∀ x ∈ e.2, dashFree x.1)
    (hdA : dashFree A) (hdB : dashFree B)
    (hAB : (cmGet cm A B = some CVal.must ∧ cmGet cm B A = some CVal.cannot)
        ∨ (cmGet cm A B = some CVal.cannot ∧ cmGet cm B A = some CVal.must))
    {e1 : String × List (String × CVal)} (he1 : e1 ∈ cm)
    {e2 : String × CVal} (he2 : e2 ∈ e1.2)
    {st : List Conflict × List String} (hW : impossibleInv A B st) :
    impossibleInv A B (contraStep cm e1 st e2) := by
  unfold contraStep
  by_cases h : st.2.contains (pairKeyOf e1.1 e2.1)
  · rw [if_pos h]
    exact hW
  · rw [if_neg h]
    intro hkmem
    simp only at hkmem
    rcases List.mem_append.1 hkmem with hold | hnew
    · obtain ⟨c, hcmem, hcprop⟩ := hW hold
      refine ⟨c, ?_, hcprop⟩
      by_cases hcond : (e2.2 == CVal.must && cmGet cm e2.1 e1.1 == some CVal.cannot)
          || (e2.2 == CVal.cannot && cmGet cm e2.1 e1.1 == some CVal.must)
      · simp only [hcond, if_pos]
        exact List.mem_append_left _ hcmem
      · simp only [hcond, if_neg, Bool.false_eq_true]
        exact hcmem
    · have hkey : pairKeyOf A B = pairKeyOf e1.1 e2.1 := List.mem_singleton.1 hnew
      have hde1 : dashFree e1.1 := (hdash e1 he1).1
      have hde2 : dashFree e2.1 := (hdash e1 he1).2 e2 he2
      have hval : cmGet cm e1.1 e2.1 = some e2.2 :=
        cmGet_of_entries hkeys hrows
          (show (e1.1, e1.2) ∈ cm by simpa using he1)
          (show (e2.1, e2.2) ∈ e1.2 by simpa using he2)
      rcases pairKeyOf_inj hdA hdB hde1 hde2 hkey with ⟨hA1, hB1⟩ | ⟨hA1, hB1⟩
      · -- e1.1 = A, e2.1 = B
        rw [← hA1, ← hB1] at hval
        have hrevAB : cmGet cm e2.1 e1.1 = cmGet cm B A := by rw [← hA1, ← hB1]
        rcases hAB with ⟨hm, hcnonono⟩ | ⟨hm, hcnonono⟩ <;>
        · rw [hm] at hval
          have hv2 : e2.2 = _ := (Option.some.injEq _ _ ▸ hval.symm)
          have hcond : ((e2.2 == CVal.must && cmGet cm e2.1 e1.1 == some CVal.cannot)
              || (e2.2 == CVal.cannot && cmGet cm e2.1 e1.1 == some CVal.must)) = true := by
            rw [← hv2, hrevAB, hcnonono]
            simp
          simp only [hcond, if_pos]
          exact ⟨⟨ConflictType.impossible, Severity.critical, [e1.1, e2.1]⟩,
            List.mem_append_right _ (by simp), rfl, rfl,
            Or.inl (by rw [hA1, hB1])⟩
      · -- e1.1 = B, e2.1 = A
        rw [← hA1, ← hB1] at hval
        have hrevAB : cmGet cm e2.1 e1.1 = cmGet cm A B := by rw [← hA1, ← hB1]
        rcases hAB with ⟨hfwd, hm⟩ | ⟨hfwd, hm⟩ <;>
        · rw [hm] at hval
          have hv2 : e2.2 = _ := (Option.some.injEq _ _ ▸ hval.symm)
          have hcond : ((e2.2 == CVal.must && cmGet cm e2.1 e1.1 == some CVal.cannot)
              || (e2.2 == CVal.cannot && cmGet cm e2.1 e1.1 == some CVal.must)) = true := by
            rw [← hv2, hrevAB, hfwd]
            simp
          simp only [hcond, if_pos]
          exact ⟨⟨ConflictType.impossible, Severity.critical, [e1.1, e2.1]⟩,
            List.mem_append_right _ (by simp), rfl, rfl,
            Or.inr (by rw [hA1, hB1])⟩

lemma contraStep_trigger {cm : CMap} {A B : String}
    (hkeys : (cm.map (fun e => e.1)).Nodup)
    (hrows : ∀ e ∈ cm, (e.2.map (fun x => x.1)).Nodup)
    (hdash : ∀ e ∈ cm, dashFree e.1 ∧ ∀ x ∈ e.2, dashFree x.1)
    (hdA : dashFree A) (hdB : dashFree B)
    (hAB : (cmGet cm A B = some CVal.must ∧ cmGet cm B A = some CVal.cannot)
        ∨ (cmGet cm A B = some CVal.cannot ∧ cmGet cm B A = some CVal.must))
    {rowA : List (String × CVal)} {vAB : CVal}
    (hArow : (A, rowA) ∈ cm) (hBrow : (B, vAB) ∈ rowA)
    (st : List Conflict × List String) (hW : impossibleInv A B st) :
    impossibleInv A B (contraStep cm (A, rowA) st (B, vAB))
      ∧ pairKeyOf A B ∈ (contraStep cm (A, rowA) st (B, vAB)).2 := by
  refine ⟨contraStep_preserves hkeys hrows hdash hdA hdB hAB hArow hBrow hW, ?_⟩
  unfold contraStep
  by_cases h : st.2.contains (pairKeyOf A B)
  · rw [if_pos h]
    exact List.elem_iff.1 h
  · rw [if_neg h]
    simp

lemma contradictionPass_emits {cm : CMap} {A B : String}
    (hkeys : (cm.map (fun e => e.1)).Nodup)
    (hrows : ∀ e ∈ cm, (e.2.map (fun x => x.1)).Nodup)
    (hdash : ∀ e ∈ cm, dashFree e.1 ∧ ∀ x ∈ e.2, dashFree x.1)
    (hAB : (cmGet cm A B = some CVal.must ∧ cmGet cm B A = some CVal.cannot)
        ∨ (cmGet cm A B = some CVal.cannot ∧ cmGet cm B A = some CVal.must))
    (init : List Conflict) :
    ∃ c ∈ contradictionPass cm init, c.type = ConflictType.impossible
      ∧ c.severity = Severity.critical
      ∧ (c.affectedGuests = [A, B] ∨ c.affectedGuests = [B, A]) := by
  obtain ⟨vAB, hv⟩ : ∃ v, cmGet cm A B = some v := by
    rcases hAB with ⟨hm, _⟩ | ⟨hm, _⟩ <;> exact ⟨_, hm⟩
  obtain ⟨rowA, hArow, hBrow⟩ := cmGet_entry hv
  have hdA : dashFree A := (hdash _ hArow).1
  have hdB : dashFree B := (hdash _ hArow).2 _ hBrow
  have innerMonoP : ∀ (s : List Conflict × List String)
      (x : String × CVal), x ∈ rowA →
      impossibleInv A B s → impossibleInv A B (contraStep cm (A, rowA) s x) :=
    fun s x hx hI => contraStep_preserves hkeys hrows hdash hdA hdB hAB hArow hx hI
  have hQ := foldl_trigger
    (fun acc e1 => e1.2.foldl (contraStep cm e1) acc)
    (impossibleInv A B)
    (fun st => impossibleInv A B st ∧ pairKeyOf A B ∈ st.2)
    cm (A, rowA) hArow
    (fun s y hy hInv => foldl_preserve (contraStep cm y) (impossibleInv A B)
      y.2 s (fun s' x hx hI =>
        contraStep_preserves hkeys hrows hdash hdA hdB hAB hy hx hI) hInv)
    (fun s y hy hQs => ⟨foldl_preserve (contraStep cm y) (impossibleInv A B)
        y.2 s (fun s' x hx hI =>
          contraStep_preserves hkeys hrows hdash hdA hdB hAB hy hx hI) hQs.1,
      foldl_preserve (contraStep cm y)
        (fun st => pairKeyOf A B ∈ st.2) y.2 s
        (fun s' x _ hm => contraStep_checked_mono hm) hQs.2⟩)
    (fun s hInv => foldl_trigger (contraStep cm (A, rowA))
      (impossibleInv A B)
      (fun st => impossibleInv A B st ∧ pairKeyOf A B ∈ st.2)
      rowA (B, vAB) hBrow innerMonoP
      (fun s' x hx hQs => ⟨innerMonoP s' x hx hQs.1,
        contraStep_checked_mono hQs.2⟩)
      (fun s' hI => contraStep_trigger hkeys hrows hdash hdA hdB hAB
        hArow hBrow s' hI)
      s hInv)
    (init, []) (fun hk => absurd hk (by simp))
  rw [contradictionPass_eq]
  exact hQ.1 hQ.2

/-- Folds whose steps only append entries preserve any found entry. -/
lemma exists_in_append_fold {α β : Type} {Pc : β → Prop}
    (f : List β → α → List β)
    (hmono : ∀ cfs x, ∃ t, f cfs x = cfs ++ t) (l : List α)
    (cfs : List β) (h : ∃ c ∈ cfs, Pc c) :
    ∃ c ∈ l.foldl f cfs, Pc c := by
  refine foldl_preserve f (fun s => ∃ c ∈ s, Pc c) l cfs ?_ h
  intro s x _ ⟨c, hc, hPc⟩
  obtain ⟨t, ht⟩ := hmono s x
  exact ⟨c, ht ▸ List.mem_append_left _ hc, hPc⟩

lemma detectConstraintConflicts_impossible {guests : List Guest} {cm : CMap}
    {tables : List Table} {A B : String} (checkAdj : Bool) (adjD : AdjMap)
    (hguests : guests ≠ []) (htables : tables ≠ [])
    (hkeys : (cm.map (fun e => e.1)).Nodup)
    (hrows : ∀ e ∈ cm, (e.2.map (fun x => x.1)).Nodup)
    (hdash : ∀ e ∈ cm, dashFree e.1 ∧ ∀ x ∈ e.2, dashFree x.1)
    (hAB : (cmGet cm A B = some CVal.must ∧ cmGet cm B A = some CVal.cannot)
        ∨ (cmGet cm A B = some CVal.cannot ∧ cmGet cm B A = some CVal.must)) :
    ∃ c ∈ detectConstraintConflicts guests cm tables checkAdj adjD,
      c.type = ConflictType.impossible ∧ c.severity = Severity.critical
        ∧ (c.affectedGuests = [A, B] ∨ c.affectedGuests = [B, A]) := by
  have hcond : (guests.isEmpty || tables.isEmpty) = false := by
    cases guests with
    | nil => exact absurd rfl hguests
    | cons g gs =>
      cases tables with
      | nil => exact absurd rfl htables
      | cons t ts => rfl
  unfold detectConstraintConflicts
  rw [if_neg (by rw [hcond]; exact Bool.false_ne_true)]
  exact exists_in_append_fold _
    (fun cfs group => by
      by_cases h : maxCap tables <
          group.foldl (fun s n =>
            s + (((guestLookup guests n).map (fun g => g.count)).getD 0)) 0
      · exact ⟨_, by rw [if_pos h]⟩
      · exact ⟨[], by rw [if_neg h, List.append_nil]⟩)
    _ _
    (contradictionPass_emits hkeys hrows hdash hAB _)

lemma generateSeatingPlans_zero_of_critical (R : Nat → Nat → Nat → Nat)
    (guests : List Guest) (tables : List Table) (cm : CMap) (adj : AdjMap)
    (asg : AsgMap) (isPremium : Bool)
    (hcrit : ∃ c ∈ detectConstraintConflicts guests cm tables true adj,
      c.severity = Severity.critical) :
    (generateSeatingPlans R guests tables cm adj asg isPremium).plans = []
      ∧ ∃ e ∈ (generateSeatingPlans R guests tables cm adj asg isPremium).errors,
          e.type = EKind.error := by
  unfold generateSeatingPlans
  by_cases hval : (validateConstraints guests tables cm asg adj).any
      (fun e => e.type == EKind.error) = true
  · rw [if_pos hval]
    refine ⟨rfl, ?_⟩
    obtain ⟨e, he, hp⟩ := List.any_eq_true.1 hval
    exact ⟨e, he, by simpa using hp⟩
  · rw [if_neg hval]
    obtain ⟨c, hc, hcsev⟩ := hcrit
    have hfilter : (!((detectConstraintConflicts guests cm tables true adj).filter
        (fun c => c.severity == Severity.critical)).isEmpty) = true := by
      have hmem : c ∈ (detectConstraintConflicts guests cm tables true adj).filter
          (fun c => c.severity == Severity.critical) :=
        List.mem_filter.2 ⟨hc, by simp [hcsev]⟩
      cases hni : ((detectConstraintConflicts guests cm tables true adj).filter
          (fun c => c.severity == Severity.critical)) with
      | nil => rw [hni] at hmem; exact absurd hmem (by simp)
      | cons x xs => rfl
    simp only [hfilter, if_true]
    refine ⟨by simp, ?_⟩
    exact ⟨⟨"Critical constraint conflicts detected. Please resolve conflicts before generating plans.",
      EKind.error⟩, by simp, rfl⟩

/-- C4 (amended): under the JS-object key-uniqueness facts, and provided that
no key occurring in the constraint map contains the character `-` (the
`checkedPairs` keys join the sorted pair with `--`, and a hyphenated name can
collide with an earlier pair's key and suppress the check) and that the table
list is nonempty (otherwise the detector returns no conflicts at all), a pair
related by `must` in one direction and `cannot` in the other yields an
`impossible` conflict of `critical` severity naming the pair, and
`generateSeatingPlans` on the same input returns zero plans together with an
error of kind `error`, returning at its conflict gate before any placement
search. -/
theorem C4_impossible_pair_amended (R : Nat → Nat → Nat → Nat)
    (guests : List Guest) (tables : List Table) (cm : CMap) (adj : AdjMap)
    (asg : AsgMap) (isPremium : Bool) (A B : String)
    (hA : A ∈ guests.map (fun g => g.name)) (htables : tables ≠ [])
    (hkeys : (cm.map (fun e => e.1)).Nodup)
    (hrows : ∀ e ∈ cm, (e.2.map (fun x => x.1)).Nodup)
    (hdash : ∀ e ∈ cm, dashFree e.1 ∧ ∀ x ∈ e.2, dashFree x.1)
    (hAB : (cmGet cm A B = some CVal.must ∧ cmGet cm B A = some CVal.cannot)
        ∨ (cmGet cm A B = some CVal.cannot ∧ cmGet cm B A = some CVal.must)) :
    (∃ c ∈ detectConstraintConflicts guests cm tables true adj,
      c.type = ConflictType.impossible ∧ c.severity = Severity.critical
        ∧ (c.affectedGuests = [A, B] ∨ c.affectedGuests = [B, A]))
    ∧ (generateSeatingPlans R guests tables cm adj asg isPremium).plans = []
    ∧ ∃ e ∈ (generateSeatingPlans R guests tables cm adj asg isPremium).errors,
        e.type = EKind.error := by
  have hguests : guests ≠ [] := by
    intro h
    rw [h] at hA
    simp at hA
  have hdet := detectConstraintConflicts_impossible true adj hguests htables
    hkeys hrows hdash hAB
  refine ⟨hdet, ?_⟩
  obtain ⟨c, hc, _, hsev, _⟩ := hdet
  exact generateSeatingPlans_zero_of_critical R guests tables cm adj asg
    isPremium ⟨c, hc, hsev⟩

/-- A fixed `Math.random` oracle for concrete runs. -/
def zeroRng : Nat → Nat → Nat → Nat := fun _ _ _ => 0

def c4guests : List Guest := [⟨"a", 1⟩, ⟨"b--c", 1⟩, ⟨"a--b", 1⟩, ⟨"c", 1⟩]

def c4cm : CMap :=
  [("a", [("b--c", CVal.blank)]),
   ("a--b", [("c", CVal.must)]),
   ("c", [("a--b", CVal.cannot)])]

set_option maxRecDepth 100000 in
/-- C4 counterexample: the guests `a--b` and `c` are related by `must` in one
direction and `cannot` in the other, yet the detector emits no `impossible`
conflict and `generateSeatingPlans` produces a plan with no errors: the inert
earlier pair `(a, b--c)` enters `checkedPairs` under the same joined key
`a--b--c`, so the contradictory pair is skipped as already checked. -/
theorem C4_counterexample :
    cmGet c4cm "a--b" "c" = some CVal.must
    ∧ cmGet c4cm "c" "a--b" = some CVal.cannot
    ∧ "a--b" ∈ c4guests.map (fun g => g.name)
    ∧ "c" ∈ c4guests.map (fun g => g.name)
    ∧ ((detectConstraintConflicts c4guests c4cm [⟨1, 8⟩] true []).all
        (fun c => !(c.type == ConflictType.impossible))) = true
    ∧ (generateSeatingPlans zeroRng c4guests [⟨1, 8⟩] c4cm [] [] false).plans ≠ []
    ∧ (generateSeatingPlans zeroRng c4guests [⟨1, 8⟩] c4cm [] [] false).errors = [] := by
  decide

/-- C4 witness: a dash-free two-guest instance of the amended theorem. -/
theorem C4_witness :
    (∃ c ∈ detectConstraintConflicts [⟨"A", 1⟩, ⟨"B", 1⟩]
        [("A", [("B", CVal.must)]), ("B", [("A", CVal.cannot)])] [⟨1, 4⟩] true [],
      c.type = ConflictType.impossible ∧ c.severity = Severity.critical
        ∧ (c.affectedGuests = ["A", "B"] ∨ c.affectedGuests = ["B", "A"]))
    ∧ (generateSeatingPlans zeroRng [⟨"A", 1⟩, ⟨"B", 1⟩] [⟨1, 4⟩]
        [("A", [("B", CVal.must)]), ("B", [("A", CVal.cannot)])] [] [] false).plans = []
    ∧ ∃ e ∈ (generateSeatingPlans zeroRng [⟨"A", 1⟩, ⟨"B", 1⟩] [⟨1, 4⟩]
        [("A", [("B", CVal.must)]), ("B", [("A", CVal.cannot)])] [] [] false).errors,
        e.type = EKind.error :=
  C4_impossible_pair_amended zeroRng [⟨"A", 1⟩, ⟨"B", 1⟩] [⟨1, 4⟩]
    [("A", [("B", CVal.must)]), ("B", [("A", CVal.cannot)])] [] [] false "A" "B"
    (by decide) (by decide) (by decide) (by decide) (by decide)
    (Or.inl ⟨by decide, by decide⟩)

/-! ### C9: the adjacency-violation pass of the solver-file variant -/

/-- Seat demand of one adjacency entry: the adjacent guests' party sizes plus
the guest's own party size (`totalAdjacentSeats + guest1Count`). -/
def adjLoad (guests : List Guest) (g1 : String) (L : List String) : Nat :=
  (L.foldl (fun s a => s + (((guestLookup guests a).map (fun g => g.count)).getD 0)) 0)
    + (((guestLookup guests g1).map (fun g => g.count)).getD 0)

/-- The dedup key of one adjacency entry: all affected names sorted and joined
with `'--'`. -/
def adjKey (e : String × List String) : String :=
  joinSep "--" (List.insertionSort strLe (e.1 :: e.2))

namespace VariantA

/-- The fold step of this variant's adjacency pass (accumulator: conflicts so
far, dedup keys recorded so far). -/
def adjStep (guests : List Guest) (maxTableCapacity : Nat)
    (acc : List Conflict × List String) (e : String × List String) :
    List Conflict × List String :=
  let guest1Count :=
    ((guestLookup guests e.1).map (fun g => g.count)).getD 0
  let totalAdjacentSeats := e.2.foldl
    (fun s a => s + (((guestLookup guests a).map (fun g => g.count)).getD 0)) 0
  if maxTableCapacity < totalAdjacentSeats + guest1Count then
    let conflictKey :=
      joinSep "--" (List.insertionSort strLe (e.1 :: e.2))
    if acc.2.contains conflictKey then acc
    else
      (acc.1 ++ [⟨ConflictType.adjacency_violation, Severity.high, e.1 :: e.2⟩],
       acc.2 ++ [conflictKey])
  else acc

/-- Everything this detector accumulates before its adjacency pass. -/
def preAdjConflicts (guests : List Guest) (cm : CMap) (tables : List Table) :
    List Conflict :=
  let guestKeys := setOfList (guests.map (fun g => g.name))
  let st := guestKeys.foldl
    (fun (st : DCState) g =>
      if st.visited.contains g then st
      else detectCycleGoA cm guestKeys (guests.length + 1) g [g] [] st)
    ⟨[], []⟩
  let conflicts := contradictionPass cm st.conflicts
  let groups := dsuGroupsOfGuests guests (capacityDSU guests cm)
  let maxTableCapacity := maxCap tables
  groups.foldl
    (fun cfs group =>
      let totalSize := group.foldl
        (fun s n => s + (((guestLookup guests n).map (fun g => g.count)).getD 0)) 0
      if maxTableCapacity < totalSize then
        cfs ++ [⟨ConflictType.capacity_violation, Severity.critical, group⟩]
      else cfs)
    conflicts

lemma adjStep_eq (guests : List Guest) (mc : Nat)
    (acc : List Conflict × List String) (e : String × List String) :
    adjStep guests mc acc e =
      if mc < adjLoad guests e.1 e.2 then
        if acc.2.contains (adjKey e) then acc
        else (acc.1 ++ [⟨ConflictType.adjacency_violation, Severity.high, e.1 :: e.2⟩],
              acc.2 ++ [adjKey e])
      else acc := rfl

lemma detectConstraintConflicts_eq_adjFold (guests : List Guest) (cm : CMap)
    (tables : List Table) (adjacents : AdjMap)
    (hg : guests ≠ []) (ht : tables ≠ []) (ha : adjacents ≠ []) :
    detectConstraintConflicts guests cm tables true adjacents
      = (adjacents.foldl (adjStep guests (maxCap tables))
          (preAdjConflicts guests cm tables, [])).1 := by
  cases guests with
  | nil => exact absurd rfl hg
  | cons g gs =>
    cases tables with
    | nil => exact absurd rfl ht
    | cons t ts =>
      cases adjacents with
      | nil => exact absurd rfl ha
      | cons a as => rfl

/-- Invariant of the adjacency fold: every recorded dedup key is the sorted
`'--'`-join of some already-pushed adjacency conflict's guest list. -/
def adjInv (acc : List Conflict × List String) : Prop :=
  ∀ k ∈ acc.2, ∃ c ∈ acc.1, c.type = ConflictType.adjacency_violation
    ∧ c.severity = Severity.high ∧ (∀ n ∈ c.affectedGuests, dashFree n)
    ∧ c.affectedGuests ≠ []
    ∧ joinSep "--" (List.insertionSort strLe c.affectedGuests) = k

lemma adjStep_conflicts_mono {guests : List Guest} {mc : Nat}
    {acc : List Conflict × List String} {e : String × List String} {c : Conflict}
    (h : c ∈ acc.1) : c ∈ (adjStep guests mc acc e).1 := by
  rw [adjStep_eq]
  by_cases h1 : mc < adjLoad guests e.1 e.2
  · rw [if_pos h1]
    by_cases h2 : acc.2.contains (adjKey e)
    · rw [if_pos h2]
      exact h
    · rw [if_neg h2]
      exact List.mem_append_left _ h
  · rw [if_neg h1]
    exact h

lemma adjStep_preserves {guests : List Guest} {mc : Nat}
    {acc : List Conflict × List String} {e : String × List String}
    (hde : dashFree e.1 ∧ ∀ n ∈ e.2, dashFree n)
    (hI : adjInv acc) : adjInv (adjStep guests mc acc e) := by
  rw [adjStep_eq]
  by_cases h1 : mc < adjLoad guests e.1 e.2
  · rw [if_pos h1]
    by_cases h2 : acc.2.contains (adjKey e)
    · rw [if_pos h2]
      exact hI
    · rw [if_neg h2]
      intro k hk
      rcases List.mem_append.1 hk with hold | hnew
      · obtain ⟨c, hc, hprop⟩ := hI k hold
        exact ⟨c, List.mem_append_left _ hc, hprop⟩
      · have hkeq : k = adjKey e := List.mem_singleton.1 hnew
        refine ⟨⟨ConflictType.adjacency_violation, Severity.high, e.1 :: e.2⟩,
          List.mem_append_right _ (by simp), rfl, rfl, ?_, by simp, ?_⟩
        · intro n hn
          rcases List.mem_cons.1 hn with h | h
          · rw [h]
            exact hde.1
          · exact hde.2 n h
        · rw [hkeq]
          rfl
  · rw [if_neg h1]
    exact hI

lemma adjStep_trigger {guests : List Guest} {mc : Nat} {e : String × List String}
    (hde : dashFree e.1 ∧ ∀ n ∈ e.2, dashFree n)
    (hover : mc < adjLoad guests e.1 e.2)
    (acc : List Conflict × List String) (hI : adjInv acc) :
    ∃ c ∈ (adjStep guests mc acc e).1,
      c.type = ConflictType.adjacency_violation ∧ c.severity = Severity.high
        ∧ List.Perm c.affectedGuests (e.1 :: e.2) := by
  rw [adjStep_eq, if_pos hover]
  by_cases h2 : acc.2.contains (adjKey e)
  · rw [if_pos h2]
    obtain ⟨c, hc, ht, hs, hdf, hne, hkey⟩ := hI _ (List.elem_iff.1 h2)
    refine ⟨c, hc, ht, hs, ?_⟩
    have hsorts : List.insertionSort strLe c.affectedGuests
        = List.insertionSort strLe (e.1 :: e.2) := by
      refine joinSep_dd_inj _ _ ?_ ?_ ?_ ?_ hkey
      · intro h0
        apply hne
        have hp := List.perm_insertionSort strLe c.affectedGuests
        rw [h0] at hp
        exact hp.symm.eq_nil
      · intro h0
        have hp := List.perm_insertionSort strLe (e.1 :: e.2)
        rw [h0] at hp
        exact List.cons_ne_nil _ _ hp.symm.eq_nil
      · intro s hs'
        exact hdf s ((List.perm_insertionSort strLe c.affectedGuests).mem_iff.1 hs')
      · intro s hs'
        have hm := (List.perm_insertionSort strLe (e.1 :: e.2)).mem_iff.1 hs'
        rcases List.mem_cons.1 hm with h | h
        · rw [h]
          exact hde.1
        · exact hde.2 s h
    refine (List.perm_insertionSort strLe c.affectedGuests).symm.trans ?_
    rw [hsorts]
    exact List.perm_insertionSort strLe (e.1 :: e.2)
  · rw [if_neg h2]
    exact ⟨⟨ConflictType.adjacency_violation, Severity.high, e.1 :: e.2⟩,
      List.mem_append_right _ (by simp), rfl, rfl, List.Perm.refl _⟩

end VariantA

/-- **C9** (amended: adjacency names must be `'--'`-free). On a non-empty
guest/table/adjacency input whose adjacency names contain no `'-'`, every
adjacency entry `(g, L)` whose seat demand exceeds the largest table capacity
yields an `adjacency_violation` conflict of severity `high` whose affected
guests are, up to the order induced by the dedup key, exactly `g` and the
guests of `L`. The source deduplicates by the sorted `'--'`-joined name
string, which identifies the sorted name multiset only when names are
dash-free. -/
theorem C9_adjacency_violation_amended (guests : List Guest) (cm : CMap)
    (tables : List Table) (adjacents : AdjMap) (g : String) (L : List String)
    (hguests : guests ≠ []) (htables : tables ≠ []) (hadj : adjacents ≠ [])
    (hdash : ∀ e ∈ adjacents, dashFree e.1 ∧ ∀ n ∈ e.2, dashFree n)
    (hmem : (g, L) ∈ adjacents)
    (hover : maxCap tables < adjLoad guests g L) :
    ∃ c ∈ VariantA.detectConstraintConflicts guests cm tables true adjacents,
      c.type = ConflictType.adjacency_violation ∧ c.severity = Severity.high
        ∧ List.Perm c.affectedGuests (g :: L) := by
  rw [VariantA.detectConstraintConflicts_eq_adjFold guests cm tables adjacents
    hguests htables hadj]
  exact foldl_trigger
    (VariantA.adjStep guests (maxCap tables))
    VariantA.adjInv
    (fun acc => ∃ c ∈ acc.1, c.type = ConflictType.adjacency_violation
      ∧ c.severity = Severity.high ∧ List.Perm c.affectedGuests (g :: L))
    adjacents (g, L) hmem
    (fun s y hy hI => VariantA.adjStep_preserves (hdash y hy) hI)
    (fun s y hy hQ => by
      obtain ⟨c, hc, hp⟩ := hQ
      exact ⟨c, VariantA.adjStep_conflicts_mono hc, hp⟩)
    (fun s hI => VariantA.adjStep_trigger (hdash (g, L) hmem) hover s hI)
    (VariantA.preAdjConflicts guests cm tables, [])
    (fun k hk => absurd hk (by simp))

def c9guests : List Guest := [⟨"a", 3⟩, ⟨"b--c", 3⟩, ⟨"a--b", 3⟩, ⟨"c", 3⟩]

def c9adj : AdjMap := [("a", ["b--c"]), ("a--b", ["c"])]

/-- C9 counterexample: guest `a--b` (party 3) with adjacent `c` (party 3)
demands 6 seats against a largest capacity of 5, yet the detector returns no
conflict naming `a--b` at all: the earlier oversize entry `(a, [b--c])` pushed
the dedup key `a--b--c`, which the distinct guest set `\x7ba--b, c\x7d` also sorts
and joins to, so its conflict is dropped as a duplicate. -/
theorem C9_counterexample :
    ("a--b", ["c"]) ∈ c9adj
    ∧ maxCap [⟨1, 5⟩] < adjLoad c9guests "a--b" ["c"]
    ∧ VariantA.detectConstraintConflicts c9guests [] [⟨1, 5⟩] true c9adj
        = [⟨ConflictType.adjacency_violation, Severity.high, ["a", "b--c"]⟩]
    ∧ ((VariantA.detectConstraintConflicts c9guests [] [⟨1, 5⟩] true c9adj).all
        (fun c => !(c.affectedGuests.contains "a--b"))) = true := by
  decide

/-- C9 witness: a dash-free instance of the amended theorem (guest `A` of
party 2 adjacent to `B` of party 2, largest table seats 3). -/
theorem C9_witness :
    ∃ c ∈ VariantA.detectConstraintConflicts [⟨"A", 2⟩, ⟨"B", 2⟩] []
        [⟨1, 3⟩] true [("A", ["B"])],
      c.type = ConflictType.adjacency_violation ∧ c.severity = Severity.high
        ∧ List.Perm c.affectedGuests ("A" :: ["B"]) :=
  C9_adjacency_violation_amended [⟨"A", 2⟩, ⟨"B", 2⟩] [] [⟨1, 3⟩]
    [("A", ["B"])] "A" ["B"] (by decide) (by decide) (by decide)
    (by decide) (by decide) (by decide)

/-! ### C8: the validation pass and its abort behaviour -/

/-- Dummy table for positional `getD` reasoning. -/
def ptDummy : PTable := ⟨0, [], 0⟩

lemma occupancy_append (a b : List Guest) :
    occupancy (a ++ b) = occupancy a + occupancy b := by
  unfold occupancy
  rw [List.map_append, List.sum_append]

lemma canPlace_occupancy {units seats : List Guest} {cap : Nat} {cm : CMap}
    (h : canPlaceGroupOnTable units seats cap cm = true) :
    occupancy seats + occupancy units ≤ cap := by
  unfold canPlaceGroupOnTable at h
  by_cases hc : cap < seats.foldl (fun s g => s + g.count) 0
      + units.foldl (fun s g => s + g.count) 0
  · rw [if_pos hc] at h
    exact absurd h (by simp)
  · push_neg at hc
    rw [foldl_add_count, foldl_add_count] at hc
    simpa using hc

lemma canPlace_noCannot {units seats : List Guest} {cap : Nat} {cm : CMap}
    (h : canPlaceGroupOnTable units seats cap cm = true)
    {u v : Guest} (hu : u ∈ units) (hv : v ∈ seats) :
    ¬ cmGet cm u.name v.name = some CVal.cannot
      ∧ ¬ cmGet cm v.name u.name = some CVal.cannot := by
  unfold canPlaceGroupOnTable at h
  by_cases hc : cap < seats.foldl (fun s g => s + g.count) 0
      + units.foldl (fun s g => s + g.count) 0
  · rw [if_pos hc] at h
    exact absurd h (by simp)
  · rw [if_neg hc] at h
    have h1 := List.all_eq_true.1 h u hu
    have h2 := List.all_eq_true.1 h1 v hv
    rw [Bool.not_eq_true', Bool.or_eq_false_iff] at h2
    exact ⟨by simpa using h2.1, by simpa using h2.2⟩

lemma tryAssignedTables_spec (cm : CMap) (units : List Guest) :
    ∀ (ids : List Int) (plan plan' : List PTable),
      tryAssignedTables cm units plan ids = some plan' →
      ∃ idx t, plan.get? idx = some t
        ∧ canPlaceGroupOnTable units t.seats t.capacity cm = true
        ∧ plan' = plan.set idx { t with seats := t.seats ++ units }
  | [], plan, plan', h => by simp [tryAssignedTables] at h
  | tid :: rest, plan, plan', h => by
    unfold tryAssignedTables at h
    cases hidx : plan.findIdx? (fun t => t.id == tid) with
    | none =>
      simp only [hidx] at h
      exact tryAssignedTables_spec cm units rest plan plan' h
    | some idx =>
      simp only [hidx] at h
      cases hget : plan.get? idx with
      | none =>
        simp only [hget] at h
        exact tryAssignedTables_spec cm units rest plan plan' h
      | some t =>
        simp only [hget] at h
        by_cases hcan : canPlaceGroupOnTable units t.seats t.capacity cm
        · rw [if_pos hcan] at h
          exact ⟨idx, t, hget, hcan, (Option.some.inj h).symm⟩
        · rw [if_neg hcan] at h
          exact tryAssignedTables_spec cm units rest plan plan' h

lemma tryTablesInOrder_spec (cm : CMap) (units : List Guest) :
    ∀ (order : List Nat) (plan plan' : List PTable),
      tryTablesInOrder cm units plan order = some plan' →
      ∃ idx t, plan.get? idx = some t
        ∧ canPlaceGroupOnTable units t.seats t.capacity cm = true
        ∧ plan' = plan.set idx { t with seats := t.seats ++ units }
  | [], plan, plan', h => by simp [tryTablesInOrder] at h
  | idx :: rest, plan, plan', h => by
    unfold tryTablesInOrder at h
    cases hget : plan.get? idx with
    | none =>
      simp only [hget] at h
      exact tryTablesInOrder_spec cm units rest plan plan' h
    | some t =>
      simp only [hget] at h
      by_cases hcan : canPlaceGroupOnTable units t.seats t.capacity cm
      · rw [if_pos hcan] at h
        exact ⟨idx, t, hget, hcan, (Option.some.inj h).symm⟩
      · rw [if_neg hcan] at h
        exact tryTablesInOrder_spec cm units rest plan plan' h

lemma placeGroups_cons_spec {rng : Nat → Nat → Nat} {cm : CMap} {asg : AsgMap}
    {G : AtomicGroup} {rest : List AtomicGroup} {k : Nat}
    {plan plan' : List PTable}
    (h : placeGroups rng cm asg (G :: rest) k plan = some plan') :
    ∃ idx t, plan.get? idx = some t
      ∧ canPlaceGroupOnTable G.units t.seats t.capacity cm = true
      ∧ placeGroups rng cm asg rest (k + 1)
          (plan.set idx { t with seats := t.seats ++ G.units }) = some plan' := by
  unfold placeGroups at h
  dsimp only at h
  repeat' split at h
  all_goals first
    | exact absurd h (by simp)
    | (rename_i heq
       first
        | (obtain ⟨idx, t, hget, hcan, rfl⟩ :=
             tryTablesInOrder_spec cm G.units _ plan _ heq
           exact ⟨idx, t, hget, hcan, h⟩)
        | (repeat' split at heq
           all_goals first
             | exact absurd heq (by simp)
             | (obtain ⟨idx, t, hget, hcan, rfl⟩ :=
                  tryAssignedTables_spec cm G.units _ plan _ heq
                exact ⟨idx, t, hget, hcan, h⟩)))

/-- Generic preservation through the placement loop: any plan property stable
under a single admissible placement of a group satisfying `Pg` holds for the
final plan. -/
lemma placeGroups_preserve (rng : Nat → Nat → Nat) (cm : CMap) (asg : AsgMap)
    (P : List PTable → Prop) (Pg : AtomicGroup → Prop)
    (hstep : ∀ G idx t (plan : List PTable), Pg G → plan.get? idx = some t →
      canPlaceGroupOnTable G.units t.seats t.capacity cm = true →
      P plan → P (plan.set idx { t with seats := t.seats ++ G.units })) :
    ∀ (gs : List AtomicGroup) (k : Nat) (plan plan' : List PTable),
      (∀ G ∈ gs, Pg G) →
      placeGroups rng cm asg gs k plan = some plan' →
      P plan → P plan'
  | [], _, plan, plan', _, h, hP => by
    have : plan = plan' := Option.some.inj h
    exact this ▸ hP
  | G :: rest, k, plan, plan', hPg, h, hP => by
    obtain ⟨idx, t, hget, hcan, hrec⟩ := placeGroups_cons_spec h
    exact placeGroups_preserve rng cm asg P Pg hstep rest (k + 1) _ plan'
      (fun G' hG' => hPg G' (List.mem_cons_of_mem _ hG'))
      hrec
      (hstep G idx t plan (hPg G (by simp)) hget hcan hP)

/-- `q` refines `p` positionally: same ids and capacities, seats only appended. -/
def PlanExtends (p q : List PTable) : Prop :=
  q.length = p.length ∧ ∀ i, i < p.length →
    (q.getD i ptDummy).id = (p.getD i ptDummy).id
    ∧ (q.getD i ptDummy).capacity = (p.getD i ptDummy).capacity
    ∧ ∃ ext, (q.getD i ptDummy).seats = (p.getD i ptDummy).seats ++ ext

lemma planExtends_refl (p : List PTable) : PlanExtends p p :=
  ⟨rfl, fun i _ => ⟨rfl, rfl, [], (List.append_nil _).symm⟩⟩

lemma planExtends_trans {p q r : List PTable} (h1 : PlanExtends p q)
    (h2 : PlanExtends q r) : PlanExtends p r := by
  obtain ⟨hl1, h1⟩ := h1
  obtain ⟨hl2, h2⟩ := h2
  refine ⟨hl2.trans hl1, fun i hi => ?_⟩
  obtain ⟨ha1, hb1, e1, he1⟩ := h1 i hi
  obtain ⟨ha2, hb2, e2, he2⟩ := h2 i (hl1 ▸ hi)
  exact ⟨ha2.trans ha1, hb2.trans hb1, e1 ++ e2,
    by rw [he2, he1, List.append_assoc]⟩

lemma getD_set_self {l : List PTable} {idx : Nat} {t v : PTable}
    (h : l.get? idx = some t) : (l.set idx v).getD idx ptDummy = v := by
  have hlt : idx < l.length := List.get?_eq_some.1 h |>.1
  rw [List.getD_eq_get?, List.get?_set_eq_of_lt v hlt]
  rfl

lemma getD_set_other {l : List PTable} {idx i : Nat} {v : PTable}
    (h : idx ≠ i) : (l.set idx v).getD i ptDummy = l.getD i ptDummy := by
  rw [List.getD_eq_get?, List.get?_set_ne v l h, ← List.getD_eq_get?]

lemma planExtends_set {plan : List PTable} {idx : Nat} {t : PTable}
    (h : plan.get? idx = some t) (units : List Guest) :
    PlanExtends plan (plan.set idx { t with seats := t.seats ++ units }) := by
  have hgetD : plan.getD idx ptDummy = t := by
    rw [List.getD_eq_get?, h]
    rfl
  refine ⟨by rw [List.length_set], fun i hi => ?_⟩
  by_cases hidx : idx = i
  · subst hidx
    rw [getD_set_self h, hgetD]
    exact ⟨rfl, rfl, units, rfl⟩
  · rw [getD_set_other hidx]
    exact ⟨rfl, rfl, [], (List.append_nil _).symm⟩

lemma placeGroups_extends (rng : Nat → Nat → Nat) (cm : CMap) (asg : AsgMap) :
    ∀ (gs : List AtomicGroup) (k : Nat) (plan plan' : List PTable),
      placeGroups rng cm asg gs k plan = some plan' →
      PlanExtends plan plan'
  | [], _, plan, plan', h => by
    have : plan = plan' := Option.some.inj h
    exact this ▸ planExtends_refl plan
  | G :: rest, k, plan, plan', h => by
    obtain ⟨idx, t, hget, hcan, hrec⟩ := placeGroups_cons_spec h
    exact planExtends_trans (planExtends_set hget G.units)
      (placeGroups_extends rng cm asg rest (k + 1) _ plan' hrec)

lemma getD_mem {l : List PTable} {n : Nat} (h : n < l.length) :
    l.getD n ptDummy ∈ l := by
  rw [List.getD_eq_get?, List.get?_eq_get h]
  exact List.get_mem l n h

lemma placeGroups_places (rng : Nat → Nat → Nat) (cm : CMap) (asg : AsgMap) :
    ∀ (gs : List AtomicGroup) (k : Nat) (plan plan' : List PTable),
      placeGroups rng cm asg gs k plan = some plan' →
      ∀ G ∈ gs, ∃ t ∈ plan', ∀ u ∈ G.units, u ∈ t.seats
  | [], _, _, _, _, G, hG => absurd hG (by simp)
  | G0 :: rest, k, plan, plan', h, G, hG => by
    obtain ⟨idx, t, hget, hcan, hrec⟩ := placeGroups_cons_spec h
    rcases List.mem_cons.1 hG with rfl | hGrest
    · have hlt : idx < plan.length := List.get?_eq_some.1 hget |>.1
      have hlt1 : idx < (plan.set idx { t with seats := t.seats ++ G.units }).length := by
        rw [List.length_set]
        exact hlt
      obtain ⟨hlen, hext⟩ := placeGroups_extends rng cm asg rest (k + 1) _ plan' hrec
      obtain ⟨_, _, ext, hseats⟩ := hext idx hlt1
      refine ⟨plan'.getD idx ptDummy, ?_, fun u hu => ?_⟩
      · exact getD_mem (by rw [hlen]; exact hlt1)
      · rw [hseats, getD_set_self hget]
        exact List.mem_append_left _ (List.mem_append_right _ hu)
    · exact placeGroups_places rng cm asg rest (k + 1) _ plan' hrec G hGrest

/-- One step of the optimizer loop: it stops, or emits a guest it looked up
whose name is available and recurses on that name erased. -/
lemma optLoop_step (adj : AdjMap) (gmap : String → Option Guest)
    (hg : ∀ n g, gmap n = some g → g.name = n)
    (fuel : Nat) (available : List String) (cur : Guest) :
    optLoop adj gmap (fuel + 1) cur available = []
    ∨ ∃ g, gmap g.name = some g ∧ g.name ∈ available
        ∧ optLoop adj gmap (fuel + 1) cur available
          = g :: optLoop adj gmap fuel g (available.erase g.name) := by
  by_cases hemp : available.isEmpty
  · left
    simp [optLoop, hemp]
  · have hemp' : available.isEmpty = false := by simpa using hemp
    have havail : available ≠ [] := by simpa [List.isEmpty_iff] using hemp
    cases hfind : (adjGet adj cur.name).find? (fun a => available.contains a) with
    | some n =>
      cases hgm : gmap n with
      | some g =>
        have hname := hg n g hgm
        have hnav : n ∈ available := by
          have hcont := List.find?_some hfind
          exact List.elem_iff.1 hcont
        right
        refine ⟨g, by rw [hname]; exact hgm, by rw [hname]; exact hnav, ?_⟩
        simp only [optLoop, hemp', Bool.false_eq_true, if_false, hfind, hgm,
          Option.isSome_some, if_true]
      | none =>
        obtain ⟨hd, rest, rfl⟩ := List.exists_cons_of_ne_nil havail
        cases hgh : gmap hd with
        | none =>
          left
          simp only [optLoop, hemp', Bool.false_eq_true, if_false, hfind, hgm,
            Option.isSome_none, List.head?_cons]
          rw [show (some hd).bind gmap = gmap hd from rfl, hgh]
        | some g =>
          have hname := hg hd g hgh
          right
          refine ⟨g, by rw [hname]; exact hgh, by rw [hname]; simp, ?_⟩
          simp only [optLoop, hemp', Bool.false_eq_true, if_false, hfind, hgm,
            Option.isSome_none, List.head?_cons]
          rw [show (some hd).bind gmap = gmap hd from rfl, hgh]
    | none =>
      obtain ⟨hd, rest, rfl⟩ := List.exists_cons_of_ne_nil havail
      cases hgh : gmap hd with
      | none =>
        left
        simp only [optLoop, hemp', Bool.false_eq_true, if_false, hfind,
          List.head?_cons]
        rw [show (some hd).bind gmap = gmap hd from rfl, hgh]
      | some g =>
        have hname := hg hd g hgh
        right
        refine ⟨g, by rw [hname]; exact hgh, by rw [hname]; simp, ?_⟩
        simp only [optLoop, hemp', Bool.false_eq_true, if_false, hfind,
          List.head?_cons]
        rw [show (some hd).bind gmap = gmap hd from rfl, hgh]

/-- Unconditionally, the optimizer loop emits pairwise-distinct available
names, each guest being the lookup of its own name. -/
lemma optLoop_good (adj : AdjMap) (gmap : String → Option Guest)
    (hg : ∀ n g, gmap n = some g → g.name = n) :
    ∀ (fuel : Nat) (available : List String) (cur : Guest),
      available.Nodup →
      ((optLoop adj gmap fuel cur available).map (fun g => g.name)).Nodup
        ∧ ∀ g ∈ optLoop adj gmap fuel cur available,
            gmap g.name = some g ∧ g.name ∈ available
  | 0, available, cur, hnd => by simp [optLoop]
  | fuel + 1, available, cur, hnd => by
    rcases optLoop_step adj gmap hg fuel available cur with heq | ⟨g, hgm, hmem, heq⟩
    · rw [heq]
      simp
    · rw [heq]
      obtain ⟨ih1, ih2⟩ := optLoop_good adj gmap hg fuel (available.erase g.name) g
        (hnd.erase _)
      refine ⟨?_, ?_⟩
      · rw [List.map_cons]
        refine List.nodup_cons.2 ⟨?_, ih1⟩
        intro hmm
        obtain ⟨g', hg', hname⟩ := List.mem_map.1 hmm
        have hin := (ih2 g' hg').2
        rw [hname] at hin
        exact ((List.Nodup.mem_erase_iff hnd).1 hin).1 rfl
      · intro g' hg'
        rcases List.mem_cons.1 hg' with rfl | hmm
        · exact ⟨hgm, hmem⟩
        · exact ⟨(ih2 g' hmm).1, List.mem_of_mem_erase (ih2 g' hmm).2⟩

lemma subperm_of_names_nodup {l1 l2 : List Guest}
    (hnd : (l1.map (fun g => g.name)).Nodup) (hsub : ∀ g ∈ l1, g ∈ l2) :
    l1.Subperm l2 := by
  rw [List.subperm_ext_iff]
  intro x hx
  have hnd1 : l1.Nodup := hnd.of_map
  have h1 : l1.count x = 1 := List.count_eq_one_of_mem hnd1 hx
  rw [h1]
  exact List.count_pos_iff_mem.2 (hsub x hx)

/-- Unconditionally, `optimizeSeatingOrder` returns a sub-permutation of its
input (no guest is invented; none is seated twice). -/
lemma optimizeSeatingOrder_subperm (gs : List Guest) (adj : AdjMap) :
    (optimizeSeatingOrder gs adj).Subperm gs := by
  unfold optimizeSeatingOrder
  by_cases hlen : gs.length ≤ 1
  · rw [if_pos hlen]
  · rw [if_neg hlen]
    have hne : gs ≠ [] := by
      intro hnil
      rw [hnil] at hlen
      simp at hlen
    have hcur : ((gs.find? fun g => nameIsPriority g.name).getD (gs.headD ⟨"", 0⟩)) ∈ gs := by
      cases hf : gs.find? (fun g => nameIsPriority g.name) with
      | some g =>
        simp only [hf, Option.getD_some]
        exact List.mem_of_find?_eq_some hf
      | none =>
        simp only [hf, Option.getD_none]
        cases gs with
        | nil => exact absurd rfl hne
        | cons a l => simp [List.headD]
    have hgmap : ∀ n g, guestLookup gs n = some g → g.name = n :=
      fun n g h => (guestLookup_eq_some h).2
    have hndav : ((setOfList (gs.map (fun g => g.name))).erase
        ((gs.find? fun g => nameIsPriority g.name).getD (gs.headD ⟨"", 0⟩)).name).Nodup :=
      (setOfList_nodup _).erase _
    obtain ⟨hnd, hmems⟩ := optLoop_good adj (guestLookup gs) hgmap
      ((setOfList (gs.map (fun g => g.name))).erase
        ((gs.find? fun g => nameIsPriority g.name).getD (gs.headD ⟨"", 0⟩)).name).length
      ((setOfList (gs.map (fun g => g.name))).erase
        ((gs.find? fun g => nameIsPriority g.name).getD (gs.headD ⟨"", 0⟩)).name)
      ((gs.find? fun g => nameIsPriority g.name).getD (gs.headD ⟨"", 0⟩)) hndav
    refine subperm_of_names_nodup ?_ ?_
    · rw [List.map_cons]
      refine List.nodup_cons.2 ⟨?_, hnd⟩
      intro hmm
      obtain ⟨g', hg', hname⟩ := List.mem_map.1 hmm
      have hin := (hmems g' hg').2
      rw [hname] at hin
      exact ((List.Nodup.mem_erase_iff (setOfList_nodup _)).1 hin).1 rfl
    · intro g' hg'
      rcases List.mem_cons.1 hg' with rfl | hmm
      · exact hcur
      · exact (guestLookup_eq_some (hmems g' hmm).1).1

lemma optimizeSeatingOrder_mem {gs : List Guest} {adj : AdjMap} {g : Guest}
    (h : g ∈ optimizeSeatingOrder gs adj) : g ∈ gs :=
  (optimizeSeatingOrder_subperm gs adj).subset h

lemma occupancy_le_of_subperm {l1 l2 : List Guest} (h : l1.Subperm l2) :
    occupancy l1 ≤ occupancy l2 := by
  obtain ⟨l, hperm, hsub⟩ := h
  have h1 : occupancy l = occupancy l1 := by
    unfold occupancy
    exact (hperm.map (fun g => g.count)).sum_eq
  rw [← h1]
  unfold occupancy
  exact (hsub.map (fun g => g.count)).sum_le_sum (fun a _ => Nat.zero_le a)

lemma generateSinglePlan_spec {rng : Nat → Nat → Nat} {gl : List AtomicGroup}
    {tables : List Table} {cm : CMap} {adj : AdjMap} {asg : AsgMap}
    {strategy : DiversityStrategy} {plan : SeatingPlan}
    (h : generateSinglePlan rng gl tables cm adj asg strategy = some plan) :
    ∃ placedPlan,
      placeGroups rng cm asg (applyDiversityStrategy (rng 0) gl strategy) 0
          (tables.map fun t => ⟨t.id, [], t.seats⟩) = some placedPlan
        ∧ plan.tables = placedPlan.map (fun t =>
            if 1 < t.seats.length
            then { t with seats := optimizeSeatingOrder t.seats adj } else t) := by
  unfold generateSinglePlan at h
  dsimp only at h
  split at h
  · exact absurd h (by simp)
  · next placedPlan heq =>
    exact ⟨placedPlan, heq, by rw [← Option.some.inj h]⟩

lemma searchLoop_mem (R : Nat → Nat → Nat → Nat) (gl : List AtomicGroup)
    (tables : List Table) (cm : CMap) (adj : AdjMap) (asg : AsgMap)
    (maxPlans : Nat) :
    ∀ (fuel attempts : Nat) (plans : List SeatingPlan) (p : SeatingPlan),
      p ∈ searchLoop R gl tables cm adj asg maxPlans fuel attempts plans →
      p ∈ plans ∨ ∃ a strategy plan0,
        generateSinglePlan (R a) gl tables cm adj asg strategy = some plan0
          ∧ p = { plan0 with score := scorePlan plan0 cm adj }
  | 0, attempts, plans, p, h => Or.inl h
  | fuel + 1, attempts, plans, p, h => by
    unfold searchLoop at h
    dsimp only at h
    split at h
    · split at h
      · next plan0 heq =>
        split at h
        · rcases searchLoop_mem R gl tables cm adj asg maxPlans fuel _ _ p h with
            hmem | hex
          · rcases List.mem_append.1 hmem with hold | hnew
            · exact Or.inl hold
            · exact Or.inr ⟨attempts + 1, _, plan0, heq, List.mem_singleton.1 hnew⟩
          · exact Or.inr hex
        · exact searchLoop_mem R gl tables cm adj asg maxPlans fuel _ _ p h
      · exact searchLoop_mem R gl tables cm adj asg maxPlans fuel _ _ p h
    · exact Or.inl h

lemma generateSeatingPlans_plans_mem {R : Nat → Nat → Nat → Nat}
    {guests : List Guest} {tables : List Table} {cm : CMap} {adj : AdjMap}
    {asg : AsgMap} {isPremium : Bool} {p : SeatingPlan}
    (h : p ∈ (generateSeatingPlans R guests tables cm adj asg isPremium).plans) :
    ∃ a strategy plan0,
      generateSinglePlan (R a) (buildAtomicGroups guests cm adj) tables cm adj
          asg strategy = some plan0
        ∧ p = { plan0 with score := scorePlan plan0 cm adj } := by
  unfold generateSeatingPlans at h
  dsimp only at h
  repeat' split at h
  all_goals try exact absurd h (List.not_mem_nil p)
  all_goals
    have h2 : p ∈ List.insertionSort scoreLe (searchLoop R
        (buildAtomicGroups guests cm adj) tables cm adj asg _ _ 0 []) := h
    have hmem := (List.perm_insertionSort scoreLe _).mem_iff.1 h2
    rcases searchLoop_mem R (buildAtomicGroups guests cm adj) tables cm adj
        asg _ _ 0 [] p hmem with habs | hex
    exacts [absurd habs (List.not_mem_nil p), hex]

/-- **C1**: in every plan returned by `generateSeatingPlans`, every table's
seated party sizes sum to at most that table's capacity. -/
theorem C1_capacity_invariant (R : Nat → Nat → Nat → Nat) (guests : List Guest)
    (tables : List Table) (cm : CMap) (adj : AdjMap) (asg : AsgMap)
    (isPremium : Bool) (plan : SeatingPlan)
    (hplan : plan ∈ (generateSeatingPlans R guests tables cm adj asg isPremium).plans)
    (t : PTable) (ht : t ∈ plan.tables) :
    occupancy t.seats ≤ t.capacity := by
  obtain ⟨a, strategy, plan0, hgen, rfl⟩ := generateSeatingPlans_plans_mem hplan
  obtain ⟨placed, hplace, htables⟩ := generateSinglePlan_spec hgen
  have ht' : t ∈ plan0.tables := ht
  rw [htables] at ht'
  obtain ⟨t0, ht0, rfl⟩ := List.mem_map.1 ht'
  have hcap : ∀ t' ∈ placed, occupancy t'.seats ≤ t'.capacity := by
    refine placeGroups_preserve (R a) cm asg
      (fun pl => ∀ t' ∈ pl, occupancy t'.seats ≤ t'.capacity) (fun _ => True)
      ?_ _ 0 _ placed (fun _ _ => trivial) hplace ?_
    · intro G idx tt pl _ hget hcan hP t' ht'
      rcases List.mem_or_eq_of_mem_set ht' with hmem | rfl
      · exact hP t' hmem
      · have hocc := canPlace_occupancy hcan
        show occupancy (tt.seats ++ G.units) ≤ tt.capacity
        rw [occupancy_append]
        exact hocc
    · intro t' ht'
      obtain ⟨tt, htt, rfl⟩ := List.mem_map.1 ht'
      show occupancy [] ≤ tt.seats
      simp [occupancy]
  by_cases hlen : 1 < t0.seats.length
  · rw [if_pos hlen]
    exact le_trans
      (occupancy_le_of_subperm (optimizeSeatingOrder_subperm t0.seats adj))
      (hcap t0 ht0)
  · rw [if_neg hlen]
    exact hcap t0 ht0

set_option maxRecDepth 40000 in
/-- C1 witness: the single plan of a one-guest run, checked at its one table. -/
theorem C1_witness :
    occupancy (⟨1, [⟨"A", 1⟩], 2⟩ : PTable).seats
      ≤ (⟨1, [⟨"A", 1⟩], 2⟩ : PTable).capacity :=
  C1_capacity_invariant zeroRng [⟨"A", 1⟩] [⟨1, 2⟩] [] [] [] false
    ⟨0, [⟨1, [⟨"A", 1⟩], 2⟩], 10⟩ (by decide) ⟨1, [⟨"A", 1⟩], 2⟩ (by decide)

/-! ### The diversity strategies permute the group list -/

lemma set_cons_perm {α : Type} {t : List α} {k : Nat} {xj : α}
    (h : t.get? k = some xj) (x : α) :
    List.Perm (xj :: t.set k x) (x :: t) := by
  have hk : k < t.length := (List.get?_eq_some.1 h).1
  have hdecomp : t = t.take k ++ xj :: t.drop (k + 1) := by
    conv_lhs => rw [← List.take_append_drop k t]
    rw [List.drop_eq_get_cons hk]
    have hxj : t.get ⟨k, hk⟩ = xj := by
      have := List.get?_eq_get hk
      rw [h] at this
      exact (Option.some.inj this).symm
    rw [hxj]
  have hset : t.set k x = t.take k ++ x :: t.drop (k + 1) :=
    List.set_eq_take_cons_drop x hk
  have pm1 : List.Perm (t.set k x) (x :: (t.take k ++ t.drop (k + 1))) := by
    rw [hset]
    exact List.perm_middle
  have pm2 : List.Perm t (xj :: (t.take k ++ t.drop (k + 1))) := by
    conv_lhs => rw [hdecomp]
    exact List.perm_middle
  exact ((pm1.cons xj).trans (List.Perm.swap x xj _)).trans (pm2.cons x).symm

lemma swap_sets_perm {α : Type} :
    ∀ (l : List α) (i j : Nat) (xi xj : α),
      l.get? i = some xi → l.get? j = some xj →
      List.Perm ((l.set i xj).set j xi) l
  | [], i, _, _, _, hi, _ => by simp at hi
  | x :: t, 0, 0, xi, xj, hi, hj => by
    have hxi : x = xi := by simpa using hi
    have hxj : x = xj := by simpa using hj
    subst hxi
    subst hxj
    show List.Perm (x :: t) (x :: t)
    exact List.Perm.refl _
  | x :: t, 0, j + 1, xi, xj, hi, hj => by
    have hxi : x = xi := by simpa using hi
    subst hxi
    show List.Perm (xj :: t.set j x) (x :: t)
    exact set_cons_perm (by simpa using hj) x
  | x :: t, i + 1, 0, xi, xj, hi, hj => by
    have hxj : x = xj := by simpa using hj
    subst hxj
    show List.Perm (xi :: t.set i x) (x :: t)
    exact set_cons_perm (by simpa using hi) x
  | x :: t, i + 1, j + 1, xi, xj, hi, hj => by
    show List.Perm (x :: (t.set i xj).set j xi) (x :: t)
    exact (swap_sets_perm t i j xi xj (by simpa using hi) (by simpa using hj)).cons x

lemma listSwap_perm {α : Type} (l : List α) (i j : Nat) :
    List.Perm (listSwap l i j) l := by
  unfold listSwap
  cases hi : l.get? i with
  | none => exact List.Perm.refl l
  | some xi =>
    cases hj : l.get? j with
    | none => exact List.Perm.refl l
    | some xj => exact swap_sets_perm l i j xi xj hi hj

lemma fyAux_perm {α : Type} (σ : Nat → Nat) :
    ∀ (m k : Nat) (a : List α), List.Perm (fyAux σ m k a) a
  | 0, _, a => List.Perm.refl a
  | m + 1, k, a =>
    (fyAux_perm σ m (k + 1) _).trans (listSwap_perm a (m + 1) (σ k % (m + 2)))

lemma shuffleArray_perm {α : Type} (σ : Nat → Nat) (xs : List α) :
    List.Perm (shuffleArray σ xs) xs :=
  fyAux_perm σ (xs.length - 1) 0 xs

lemma pairEmit_eq {α : Type} : ∀ l : List α, pairEmit l = l
  | [] => rfl
  | [_] => rfl
  | a :: b :: rest => by rw [pairEmit, pairEmit_eq rest]

/-- Every diversity strategy returns a permutation of the group list. -/
lemma applyDiversityStrategy_perm (σ : Nat → Nat) (groups : List AtomicGroup) :
    ∀ s : DiversityStrategy,
      List.Perm (applyDiversityStrategy σ groups s) groups
  | DiversityStrategy.shuffle => shuffleArray_perm σ groups
  | DiversityStrategy.reverse => List.reverse_perm groups
  | DiversityStrategy.sizeFirst => List.perm_insertionSort sizeFirstLe groups
  | DiversityStrategy.sizeLast => List.perm_insertionSort sizeLastLe groups
  | DiversityStrategy.randomPairs => by
      show List.Perm (pairEmit (shuffleArray σ groups)) groups
      rw [pairEmit_eq]
      exact shuffleArray_perm σ groups
  | DiversityStrategy.priorityFirst => List.perm_insertionSort groupLe groups
  | DiversityStrategy.constraintHeavyFirst =>
      List.perm_insertionSort constraintHeavyLe groups

/-! ### C2: cross-group cannot-freedom of placement -/

/-- Neither direction of the pair resolves to `cannot`. -/
def noCannot (cm : CMap) (u v : Guest) : Prop :=
  ¬ cmGet cm u.name v.name = some CVal.cannot
    ∧ ¬ cmGet cm v.name u.name = some CVal.cannot

/-- The seats of `t` decompose into whole group batches drawn from `gl`,
pairwise `cannot`-free across batches. -/
def BlocksOf (cm : CMap) (gl : List AtomicGroup) (t : PTable) : Prop :=
  ∃ bs : List (List Guest), t.seats = bs.flatten
    ∧ (∀ b ∈ bs, ∃ G ∈ gl, b = G.units)
    ∧ List.Pairwise (fun b1 b2 => ∀ u ∈ b1, ∀ v ∈ b2, noCannot cm u v) bs

lemma blocksOf_step {cm : CMap} {gl : List AtomicGroup}
    {G : AtomicGroup} (hG : G ∈ gl) {idx : Nat} {t : PTable} {pl : List PTable}
    (hget : pl.get? idx = some t)
    (hcan : canPlaceGroupOnTable G.units t.seats t.capacity cm = true)
    (hP : ∀ t' ∈ pl, BlocksOf cm gl t') :
    ∀ t' ∈ pl.set idx { t with seats := t.seats ++ G.units },
      BlocksOf cm gl t' := by
  intro t' ht'
  rcases List.mem_or_eq_of_mem_set ht' with hmem | rfl
  · exact hP t' hmem
  · obtain ⟨bs, hflat, hsrc, hpw⟩ := hP t (List.get?_mem hget)
    refine ⟨bs ++ [G.units], ?_, ?_, ?_⟩
    · show t.seats ++ G.units = _
      rw [List.flatten_append, ← hflat]
      simp
    · intro b hb
      rcases List.mem_append.1 hb with h | h
      · exact hsrc b h
      · exact ⟨G, hG, List.mem_singleton.1 h⟩
    · rw [List.pairwise_append]
      refine ⟨hpw, by simp, ?_⟩
      intro b hbbs b2 hb2 u hub v hv2
      have hb2' : b2 = G.units := List.mem_singleton.1 hb2
      subst hb2'
      have husum : u ∈ t.seats := by
        rw [hflat]
        exact List.mem_flatten.2 ⟨b, hbbs, hub⟩
      have hnn := canPlace_noCannot hcan hv2 husum
      exact ⟨hnn.2, hnn.1⟩

lemma flatten_pairwise_noCannot (cm : CMap) :
    ∀ (bs : List (List Guest)),
      List.Pairwise (fun b1 b2 => ∀ u ∈ b1, ∀ v ∈ b2, noCannot cm u v) bs →
      ∀ u v : Guest, u ∈ bs.flatten → v ∈ bs.flatten →
      (∃ b ∈ bs, u ∈ b ∧ v ∈ b) ∨ noCannot cm u v
  | [], _, u, _, hu, _ => absurd hu (by simp)
  | b :: rest, hpw, u, v, hu, hv => by
    rw [List.flatten_cons] at hu hv
    obtain ⟨hhead, htail⟩ := List.pairwise_cons.1 hpw
    rcases List.mem_append.1 hu with hub | hur
    · rcases List.mem_append.1 hv with hvb | hvr
      · exact Or.inl ⟨b, by simp, hub, hvb⟩
      · obtain ⟨b2, hb2, hv2⟩ := List.mem_flatten.1 hvr
        exact Or.inr (hhead b2 hb2 u hub v hv2)
    · rcases List.mem_append.1 hv with hvb | hvr
      · obtain ⟨b1, hb1, hu1⟩ := List.mem_flatten.1 hur
        have hnn := hhead b1 hb1 v hvb u hu1
        exact Or.inr ⟨hnn.2, hnn.1⟩
      · rcases flatten_pairwise_noCannot cm rest htail u v hur hvr with h | h
        · obtain ⟨b2, hb2, huv⟩ := h
          exact Or.inl ⟨b2, List.mem_cons_of_mem _ hb2, huv⟩
        · exact Or.inr h

/-- **C2** (amended: guests of one atomic must/adjacency group may still be
co-seated despite a `cannot` pair between them; the guarantee holds across
groups).  In every returned plan, two co-seated guests that share no atomic
group hold no `cannot` relation in either direction. -/
theorem C2_cannot_invariant_amended (R : Nat → Nat → Nat → Nat)
    (guests : List Guest) (tables : List Table) (cm : CMap) (adj : AdjMap)
    (asg : AsgMap) (isPremium : Bool) (plan : SeatingPlan)
    (hplan : plan ∈ (generateSeatingPlans R guests tables cm adj asg isPremium).plans)
    (t : PTable) (ht : t ∈ plan.tables) (u v : Guest)
    (hu : u ∈ t.seats) (hv : v ∈ t.seats)
    (hsep : ∀ G ∈ buildAtomicGroups guests cm adj, ¬(u ∈ G.units ∧ v ∈ G.units)) :
    ¬ cmGet cm u.name v.name = some CVal.cannot
      ∧ ¬ cmGet cm v.name u.name = some CVal.cannot := by
  obtain ⟨a, strategy, plan0, hgen, rfl⟩ := generateSeatingPlans_plans_mem hplan
  obtain ⟨placed, hplace, htables⟩ := generateSinglePlan_spec hgen
  have ht' : t ∈ plan0.tables := ht
  rw [htables] at ht'
  obtain ⟨t0, ht0, rfl⟩ := List.mem_map.1 ht'
  have hu0 : u ∈ t0.seats := by
    by_cases hlen : 1 < t0.seats.length
    · rw [if_pos hlen] at hu
      exact optimizeSeatingOrder_mem hu
    · rw [if_neg hlen] at hu
      exact hu
  have hv0 : v ∈ t0.seats := by
    by_cases hlen : 1 < t0.seats.length
    · rw [if_pos hlen] at hv
      exact optimizeSeatingOrder_mem hv
    · rw [if_neg hlen] at hv
      exact hv
  have hblocks : ∀ t' ∈ placed, BlocksOf cm (buildAtomicGroups guests cm adj) t' := by
    refine placeGroups_preserve (R a) cm asg
      (fun pl => ∀ t' ∈ pl, BlocksOf cm (buildAtomicGroups guests cm adj) t')
      (fun G => G ∈ buildAtomicGroups guests cm adj)
      (fun G idx tt pl hG hget hcan hP => blocksOf_step hG hget hcan hP)
      _ 0 _ placed
      (fun G hG =>
        (applyDiversityStrategy_perm (R a 0) (buildAtomicGroups guests cm adj)
          strategy).mem_iff.1 hG)
      hplace ?_
    intro t' ht'
    obtain ⟨tt, htt, rfl⟩ := List.mem_map.1 ht'
    exact ⟨[], rfl, by simp, by simp⟩
  obtain ⟨bs, hflat, hsrc, hpw⟩ := hblocks t0 ht0
  rw [hflat] at hu0 hv0
  rcases flatten_pairwise_noCannot cm bs hpw u v hu0 hv0 with ⟨b, hb, hub, hvb⟩ | hnc
  · obtain ⟨G, hGgl, rfl⟩ := hsrc b hb
    exact absurd ⟨hub, hvb⟩ (hsep G hGgl)
  · exact hnc

def c2guests : List Guest := [⟨"A", 1⟩, ⟨"B", 1⟩, ⟨"C", 1⟩]

def c2cm : CMap :=
  [("A", [("B", CVal.must), ("C", CVal.cannot)]), ("B", [("C", CVal.must)])]

set_option maxRecDepth 100000 in
/-- C2 counterexample: `A` and `C` hold a `cannot` relation, but the must
chain `A`–`B`–`C` merges all three into one atomic group, which is placed as a
whole: the returned plan co-seats `A` and `C`.  `canPlaceGroupOnTable` checks
`cannot` pairs only between the incoming group and guests already seated, not
within the group. -/
theorem C2_counterexample :
    cmGet c2cm "A" "C" = some CVal.cannot
    ∧ (generateSeatingPlans zeroRng c2guests [⟨1, 3⟩] c2cm [] [] false).errors = []
    ∧ ((generateSeatingPlans zeroRng c2guests [⟨1, 3⟩] c2cm [] [] false).plans.any
        (fun p => p.tables.any (fun t =>
          (t.seats.any (fun g => g.name == "A"))
            && (t.seats.any (fun g => g.name == "C"))))) = true := by
  decide

set_option maxRecDepth 40000 in
/-- C2 witness: two singleton groups co-seated without constraints. -/
theorem C2_witness :
    ¬ cmGet [] (Guest.mk "B" 1).name (Guest.mk "A" 1).name = some CVal.cannot
      ∧ ¬ cmGet [] (Guest.mk "A" 1).name (Guest.mk "B" 1).name = some CVal.cannot :=
  C2_cannot_invariant_amended zeroRng [⟨"A", 1⟩, ⟨"B", 1⟩] [⟨1, 4⟩] [] [] [] false
    ⟨0, [⟨1, [⟨"B", 1⟩, ⟨"A", 1⟩], 4⟩], 20⟩ (by decide)
    ⟨1, [⟨"B", 1⟩, ⟨"A", 1⟩], 4⟩ (by decide)
    ⟨"B", 1⟩ ⟨"A", 1⟩ (by decide) (by decide) (by decide)

/-! ### C3: atomic groups partition the guest names -/

lemma mapSet_keys_nodup {β : Type} {m : List (String × β)} {k : String} {v : β}
    (h : (m.map (fun e => e.1)).Nodup) :
    ((mapSet m k v).map (fun e => e.1)).Nodup := by
  unfold mapSet
  split
  · have hkeys : (m.map (fun e => if e.1 == k then (k, v) else e)).map
        (fun e => e.1) = m.map (fun e => e.1) := by
      rw [List.map_map]
      refine List.map_congr_left ?_
      intro e _
      by_cases he : e.1 == k
      · have : e.1 = k := by simpa using he
        simp [Function.comp, he, this]
      · simp [Function.comp, he]
    rw [hkeys]
    exact h
  · next hnone =>
    rw [List.map_append]
    have hkn : k ∉ m.map (fun e => e.1) := by
      intro hk
      obtain ⟨e, he, hke⟩ := List.mem_map.1 hk
      rw [Option.not_isSome_iff_eq_none] at hnone
      have := List.find?_eq_none.1 hnone e he
      simp [hke] at this
    simp only [List.map_cons, List.map_nil]
    exact List.Nodup.append h (List.nodup_singleton k)
      (by simpa [List.disjoint_singleton] using hkn)

lemma addToGroup_keys {gs : List (String × List String)} {r k : String} :
    ((addToGroup gs r k).map (fun e => e.1)).Nodup
      ↔ (gs.map (fun e => e.1)).Nodup := by
  unfold addToGroup
  split
  · have hkeys : (gs.map (fun e => if e.1 == r then (e.1, e.2 ++ [k]) else e)).map
        (fun e => e.1) = gs.map (fun e => e.1) := by
      rw [List.map_map]
      refine List.map_congr_left ?_
      intro e _
      by_cases he : e.1 == r
      · simp [Function.comp, he]
      · simp [Function.comp, he]
    rw [hkeys]
  · next hnone =>
    rw [List.map_append]
    constructor
    · intro h
      exact (List.nodup_append.1 h).1
    · intro h
      have hrn : r ∉ gs.map (fun e => e.1) := by
        intro hk
        obtain ⟨e, he, hke⟩ := List.mem_map.1 hk
        rw [Option.not_isSome_iff_eq_none] at hnone
        have := List.find?_eq_none.1 hnone e he
        simp [hke] at this
      simp only [List.map_cons, List.map_nil]
      exact List.Nodup.append h (List.nodup_singleton r)
        (by simpa [List.disjoint_singleton] using hrn)

lemma map_update_of_not_mem {gs : List (String × List String)} {r k : String}
    (h : r ∉ gs.map (fun e => e.1)) :
    gs.map (fun e => if e.1 == r then (e.1, e.2 ++ [k]) else e) = gs := by
  refine List.map_congr_left ?_ |>.trans (List.map_id gs)
  intro e he
  have : ¬ e.1 = r := fun hr => h (List.mem_map.2 ⟨e, he, hr⟩)
  simp [this]

lemma addToGroup_flatten (r k : String) :
    ∀ {gs : List (String × List String)},
      (gs.map (fun e => e.1)).Nodup →
      List.Perm (((addToGroup gs r k).map (fun e => e.2)).flatten)
        (((gs.map (fun e => e.2)).flatten) ++ [k]) := by
  intro gs hnd
  unfold addToGroup
  split
  · next hsome =>
    induction gs with
    | nil => simp at hsome
    | cons e rest ih =>
      by_cases he : e.1 == r
      · have hr : e.1 = r := by simpa using he
        have hrest : r ∉ rest.map (fun x => x.1) := by
          have h2 := (List.nodup_cons.1 hnd).1
          rw [← hr]
          exact fun hmem => h2 (by simpa using hmem)
        rw [List.map_cons, if_pos he, map_update_of_not_mem hrest]
        simp only [List.map_cons, List.flatten_cons]
        rw [List.append_assoc, List.append_assoc]
        exact List.Perm.append_left e.2 List.perm_append_comm
      · have hrsome : (rest.find? (fun x => x.1 == r)).isSome := by
          rw [List.find?_cons_of_neg] at hsome
          · exact hsome
          · simpa using he
        have hndrest : (rest.map (fun x => x.1)).Nodup :=
          (List.nodup_cons.1 hnd).2
        have ihr := ih hndrest hrsome
        rw [List.map_cons, if_neg he]
        simp only [List.map_cons, List.flatten_cons]
        rw [List.append_assoc]
        exact List.Perm.append_left e.2 ihr
  · simp

lemma ufUpd_keys {st : UFState} {x : String}
    (h : (st.parent.map (fun e => e.1)).Nodup) :
    (((if (mapGet st.parent x).isSome then st
        else { st with parent := mapSet st.parent x x,
                       rank := mapSet st.rank x 0 })).parent.map
      (fun e => e.1)).Nodup := by
  split
  · exact h
  · exact mapSet_keys_nodup h

lemma ufFindAux_keys : ∀ (fuel : Nat) (st : UFState) (x : String),
    (st.parent.map (fun e => e.1)).Nodup →
    (((ufFindAux fuel st x).2).parent.map (fun e => e.1)).Nodup
  | 0, _, _, h => h
  | fuel + 1, st, x, h => by
    unfold ufFindAux
    dsimp only
    split
    all_goals split
    all_goals first
      | exact h
      | exact mapSet_keys_nodup h
      | exact mapSet_keys_nodup (ufFindAux_keys fuel _ _ h)
      | exact mapSet_keys_nodup (ufFindAux_keys fuel _ _ (mapSet_keys_nodup h))

lemma ufFind_keys {st : UFState} {x : String}
    (h : (st.parent.map (fun e => e.1)).Nodup) :
    (((st.find x).2).parent.map (fun e => e.1)).Nodup :=
  ufFindAux_keys _ st x h

set_option maxHeartbeats 1000000 in
lemma ufUnion_keys {st : UFState} {a b : String}
    (h : (st.parent.map (fun e => e.1)).Nodup) :
    ((st.union a b).parent.map (fun e => e.1)).Nodup := by
  unfold UFState.union
  dsimp only
  have h2 : ((((st.find a).2.find b).2).parent.map (fun e => e.1)).Nodup :=
    ufFind_keys (ufFind_keys h)
  split
  · exact h2
  · split
    · exact mapSet_keys_nodup h2
    · split
      · exact mapSet_keys_nodup h2
      · exact mapSet_keys_nodup h2

lemma groupsFold_spec :
    ∀ (ks : List String) (gacc : List (String × List String)) (uf : UFState),
      (gacc.map (fun e => e.1)).Nodup →
      (((ks.foldl
            (fun (acc : List (String × List String) × UFState) k =>
              let f := acc.2.find k
              (addToGroup acc.1 f.1 k, f.2))
            (gacc, uf)).1.map (fun e => e.1)).Nodup
        ∧ List.Perm
            (((ks.foldl
                (fun (acc : List (String × List String) × UFState) k =>
                  let f := acc.2.find k
                  (addToGroup acc.1 f.1 k, f.2))
              (gacc, uf)).1.map (fun e => e.2)).flatten)
            (((gacc.map (fun e => e.2)).flatten) ++ ks))
  | [], gacc, _, hnd => ⟨hnd, by simp⟩
  | k :: ks, gacc, uf, hnd => by
    rw [List.foldl_cons]
    have hnd1 : ((addToGroup gacc (uf.find k).1 k).map (fun e => e.1)).Nodup :=
      addToGroup_keys.2 hnd
    obtain ⟨h1, h2⟩ := groupsFold_spec ks (addToGroup gacc (uf.find k).1 k)
      (uf.find k).2 hnd1
    refine ⟨h1, h2.trans ?_⟩
    have h3 := addToGroup_flatten (uf.find k).1 k hnd
    refine (h3.append_right ks).trans ?_
    rw [List.append_assoc]
    exact List.Perm.refl _

lemma getGroups_flatten {st : UFState}
    (hnd : (st.parent.map (fun e => e.1)).Nodup) :
    List.Perm (st.getGroups.flatten) (st.parent.map (fun e => e.1)) := by
  unfold UFState.getGroups
  dsimp only
  have hs := (groupsFold_spec (st.parent.map (fun e => e.1)) [] st (by simp)).2
  simpa using hs

lemma filterMap_names_sublist (guests : List Guest) :
    ∀ (names : List String),
      ((names.filterMap (guestLookup guests)).map (fun g => g.name)).Sublist names
  | [] => List.Sublist.refl []
  | n :: rest => by
    rw [List.filterMap_cons]
    cases hl : guestLookup guests n with
    | none => exact (filterMap_names_sublist guests rest).cons n
    | some g =>
      rw [List.map_cons]
      have hname : g.name = n := (guestLookup_eq_some hl).2
      rw [hname]
      exact (filterMap_names_sublist guests rest).cons₂ n

lemma flatten_map_sublist (guests : List Guest) :
    ∀ (L : List (List String)),
      ((L.map (fun names => (names.filterMap (guestLookup guests)).map
          (fun g => g.name))).flatten).Sublist L.flatten
  | [] => List.Sublist.refl []
  | names :: rest => by
    simp only [List.map_cons, List.flatten_cons]
    exact (filterMap_names_sublist guests names).append
      (flatten_map_sublist guests rest)

set_option maxHeartbeats 1000000 in
lemma buildUF_keys (guests : List Guest) (cm : CMap) (adj : AdjMap) :
    ((adj.foldl (fun st e1 => e1.2.foldl (fun st k2 => st.union e1.1 k2) st)
        (cm.foldl (fun st e1 => e1.2.foldl
            (fun st e2 => if e2.2 == CVal.must then st.union e1.1 e2.1 else st) st)
          (guests.foldl (fun st g => (st.find g.name).2)
            (⟨[], []⟩ : UFState)))).parent.map
      (fun e => e.1)).Nodup := by
  have P0 : ((guests.foldl (fun (st : UFState) g => (st.find g.name).2)
      (⟨[], []⟩ : UFState)).parent.map (fun e => e.1)).Nodup :=
    foldl_preserve (fun (st : UFState) g => (st.find g.name).2)
      (fun st : UFState => (st.parent.map (fun e => e.1)).Nodup)
      guests ⟨[], []⟩ (fun st g _ h => ufFind_keys h) (by simp)
  have P1 : ((cm.foldl (fun st e1 => e1.2.foldl
      (fun st e2 => if e2.2 == CVal.must then st.union e1.1 e2.1 else st) st)
      (guests.foldl (fun (st : UFState) g => (st.find g.name).2)
        (⟨[], []⟩ : UFState))).parent.map (fun e => e.1)).Nodup :=
    foldl_preserve
      (fun (st : UFState) e1 => e1.2.foldl
        (fun st e2 => if e2.2 == CVal.must then st.union e1.1 e2.1 else st) st)
      (fun st : UFState => (st.parent.map (fun e => e.1)).Nodup)
      cm _
      (fun st e1 _ hst =>
        foldl_preserve
          (fun (st : UFState) e2 =>
            if e2.2 == CVal.must then st.union e1.1 e2.1 else st)
          (fun st : UFState => (st.parent.map (fun e => e.1)).Nodup)
          e1.2 st
          (fun st' e2 _ h => by
            dsimp only
            split
            · exact ufUnion_keys h
            · exact h)
          hst)
      P0
  exact foldl_preserve
    (fun (st : UFState) e1 => e1.2.foldl (fun st k2 => st.union e1.1 k2) st)
    (fun st : UFState => (st.parent.map (fun e => e.1)).Nodup) adj _
    (fun st e1 _ hst =>
      foldl_preserve (fun (st : UFState) k2 => st.union e1.1 k2)
        (fun st : UFState => (st.parent.map (fun e => e.1)).Nodup)
        e1.2 st (fun st' k2 _ h => ufUnion_keys h) hst)
    P1

/-- The unit names of all atomic groups, flattened, are pairwise distinct. -/
lemma buildAtomicGroups_names_nodup (guests : List Guest) (cm : CMap)
    (adj : AdjMap) :
    (((buildAtomicGroups guests cm adj).map
        (fun G => G.units.map (fun g => g.name))).flatten).Nodup := by
  unfold buildAtomicGroups
  dsimp only
  refine (((List.perm_insertionSort groupLe _).map
    (fun G : AtomicGroup => G.units.map (fun g => g.name))).flatten.nodup_iff).2 ?_
  rw [List.map_map]
  refine List.Sublist.nodup (flatten_map_sublist guests _) ?_
  exact (getGroups_flatten (buildUF_keys guests cm adj)).nodup_iff.2
    (buildUF_keys guests cm adj)

lemma flatten_set_perm {α β : Type} {l : List α} {idx : Nat} {t : α}
    (f : α → List β) (hget : l.get? idx = some t) (newt : α) (ext : List β)
    (hnew : f newt = f t ++ ext) :
    List.Perm ((l.set idx newt).map f).flatten (((l.map f).flatten) ++ ext) := by
  have hk : idx < l.length := (List.get?_eq_some.1 hget).1
  have hdecomp : l = l.take idx ++ t :: l.drop (idx + 1) := by
    conv_lhs => rw [← List.take_append_drop idx l]
    rw [List.drop_eq_get_cons hk]
    have hxj : l.get ⟨idx, hk⟩ = t := by
      have h2 := List.get?_eq_get hk
      rw [hget] at h2
      exact (Option.some.inj h2).symm
    rw [hxj]
  have hset : l.set idx newt = l.take idx ++ newt :: l.drop (idx + 1) :=
    List.set_eq_take_cons_drop newt hk
  rw [hset]
  conv_rhs => rw [hdecomp]
  simp only [List.map_append, List.map_cons, List.flatten_append,
    List.flatten_cons, hnew, List.append_assoc]
  exact List.Perm.append_left _ (List.Perm.append_left _ List.perm_append_comm)

lemma placeGroups_names_nodup (rng : Nat → Nat → Nat) (cm : CMap) (asg : AsgMap) :
    ∀ (gs : List AtomicGroup) (k : Nat) (plan plan' : List PTable),
      placeGroups rng cm asg gs k plan = some plan' →
      ((plan.map (fun t => t.seats.map (fun g => g.name))).flatten
        ++ (gs.map (fun G => G.units.map (fun g => g.name))).flatten).Nodup →
      ((plan'.map (fun t => t.seats.map (fun g => g.name))).flatten).Nodup
  | [], _, plan, plan', h, hnd => by
    have heq : plan = plan' := Option.some.inj h
    subst heq
    simpa using hnd
  | G :: rest, k, plan, plan', h, hnd => by
    obtain ⟨idx, t, hget, hcan, hrec⟩ := placeGroups_cons_spec h
    refine placeGroups_names_nodup rng cm asg rest (k + 1) _ plan' hrec ?_
    have hperm := flatten_set_perm
      (fun t : PTable => t.seats.map (fun g => g.name)) hget
      ({ t with seats := t.seats ++ G.units })
      (G.units.map (fun g => g.name)) (by simp)
    have hcomb := hperm.append_right
      ((rest.map (fun G => G.units.map (fun g => g.name))).flatten)
    refine (hcomb.nodup_iff).2 ?_
    rw [List.append_assoc]
    simpa using hnd

lemma initial_plan_flat (tables : List Table) :
    ((tables.map (fun t => (⟨t.id, [], t.seats⟩ : PTable))).map
      (fun t => t.seats.map (fun g => g.name))).flatten = [] := by
  induction tables with
  | nil => rfl
  | cons t ts ih => simpa using ih

/-- **C3**: in every returned plan, all members of one atomic must/adjacency
group (one entry of `buildAtomicGroups`) occupy the same table. -/
theorem C3_group_coseating (R : Nat → Nat → Nat → Nat) (guests : List Guest)
    (tables : List Table) (cm : CMap) (adj : AdjMap) (asg : AsgMap)
    (isPremium : Bool) (plan : SeatingPlan)
    (hplan : plan ∈ (generateSeatingPlans R guests tables cm adj asg isPremium).plans)
    (G : AtomicGroup) (hG : G ∈ buildAtomicGroups guests cm adj)
    (u v : Guest) (hu : u ∈ G.units) (hv : v ∈ G.units) :
    ∃ t ∈ plan.tables, u ∈ t.seats ∧ v ∈ t.seats := by
  obtain ⟨a, strategy, plan0, hgen, rfl⟩ := generateSeatingPlans_plans_mem hplan
  obtain ⟨placed, hplace, htables⟩ := generateSinglePlan_spec hgen
  have hGd : G ∈ applyDiversityStrategy (R a 0)
      (buildAtomicGroups guests cm adj) strategy :=
    (applyDiversityStrategy_perm (R a 0) _ strategy).mem_iff.2 hG
  obtain ⟨t0, ht0, hunits⟩ :=
    placeGroups_places (R a) cm asg _ 0 _ placed hplace G hGd
  have hplaced_nd :
      ((placed.map (fun t => t.seats.map (fun g => g.name))).flatten).Nodup := by
    refine placeGroups_names_nodup (R a) cm asg _ 0 _ placed hplace ?_
    rw [initial_plan_flat, List.nil_append]
    refine (((applyDiversityStrategy_perm (R a 0) _ strategy).map
      (fun G : AtomicGroup => G.units.map (fun g => g.name))).flatten.nodup_iff).2 ?_
    exact buildAtomicGroups_names_nodup guests cm adj
  have ht0_nd : (t0.seats.map (fun g => g.name)).Nodup :=
    List.Sublist.nodup
      (List.sublist_join_of_mem (List.mem_map_of_mem
        (fun t : PTable => t.seats.map (fun g => g.name)) ht0)) hplaced_nd
  have hmem : (fun t : PTable => if 1 < t.seats.length
      then { t with seats := optimizeSeatingOrder t.seats adj } else t) t0
      ∈ plan0.tables := by
    rw [htables]
    exact List.mem_map_of_mem _ ht0
  refine ⟨_, hmem, ?_, ?_⟩
  · dsimp only
    split
    · exact ((optimizeSeatingOrder_perm t0.seats adj ht0_nd).mem_iff).2 (hunits u hu)
    · exact hunits u hu
  · dsimp only
    split
    · exact ((optimizeSeatingOrder_perm t0.seats adj ht0_nd).mem_iff).2 (hunits v hv)
    · exact hunits v hv

set_option maxRecDepth 100000 in
/-- C3 witness: the must-pair `A`, `B` forms one atomic group and the single
returned plan co-seats both at its one table. -/
theorem C3_witness :
    ∃ t ∈ (SeatingPlan.mk 0 [⟨1, [⟨"A", 1⟩, ⟨"B", 1⟩], 4⟩] 120).tables,
      (Guest.mk "A" 1) ∈ t.seats ∧ (Guest.mk "B" 1) ∈ t.seats :=
  C3_group_coseating zeroRng [⟨"A", 1⟩, ⟨"B", 1⟩] [⟨1, 4⟩]
    [("A", [("B", CVal.must)])] [] [] false
    ⟨0, [⟨1, [⟨"A", 1⟩, ⟨"B", 1⟩], 4⟩], 120⟩ (by decide)
    ⟨[⟨"A", 1⟩, ⟨"B", 1⟩], 2, 0, 1⟩ (by decide)
    ⟨"A", 1⟩ ⟨"B", 1⟩ (by decide) (by decide)
